import Mathlib

/-!
Verification of the betterTimetable conflict-free scheduling core.

This file gives a shallow embedding of the scheduler found in the
repository (the canonical `filterCourseList` file and
`src/app/generate/algorithms/recursiveFunctions.tsx`, which factor the
same algorithm into `scheduleCourse` / `unscheduleCourse` /
`hasTimeConflict`), and proves or refutes the frozen claims about it.

Modelling conventions:
* JavaScript `Date` values built from `"1970-01-01T<hh:mm:ss>"` are
  modelled as `Option Nat` (seconds since midnight); `none` is an
  Invalid Date (`NaN`), whose order comparisons are all `false`.
* JavaScript objects used as string-keyed maps are modelled as
  association lists in insertion order; assigning an existing key
  replaces the value in place, assigning a fresh key appends.
* Thrown exceptions are modelled with `Except JsError`; the generic
  `Error("Invalid time format: ...")` becomes `JsError.invalidTimeFormat`
  and runtime type errors (property access / iteration on `undefined`)
  become `JsError.typeError`.
* `Array.prototype.sort` with a consistent comparator is, per the
  ECMAScript specification, a stable sort; it is modelled by the stable
  insertion sort `stableSort`.
-/
/-- One concrete course offering (interface `Course` in the source). -/
structure Course where
  id : String
  unitCode : String
  unitName : String
  classType : String
  activity : String
  day : String
  time : String
  room : String
  teachingStaff : String
deriving DecidableEq, Repr

/-- The value stored for one unit of the input mapping (interface `UnitData`). -/
structure UnitData where
  unitName : String
  courses : List Course
deriving DecidableEq, Repr

/-- The input mapping from unit codes to unit data (interface `CourseList`),
as an insertion-ordered association list. -/
abbrev CourseList := List (String × UnitData)

/-- A committed interval on one day (interface `ScheduledTime`).
`start`/`endTime` are the two `Date` values; `none` is an Invalid Date. -/
structure ScheduledTime where
  start : Option Nat
  endTime : Option Nat
  unitCode : String
  activity : String
deriving DecidableEq, Repr

/-- The day-keyed occupied-time index (interface `CourseTimes`). -/
abbrev CourseTimes := List (String × List ScheduledTime)

/-- The value stored for one unit of the output mapping. -/
structure UnitEntry where
  unitName : String
  courses : List Course
deriving DecidableEq, Repr

/-- The output mapping (interface `FilteredCourseList`). -/
abbrev FilteredCourseList := List (String × UnitEntry)

/-- One activity group of a unit: an activity-type tag together with its
interchangeable course options. -/
structure Activity where
  activityType : String
  courses : List Course
deriving DecidableEq, Repr

/-- A unit as assembled by the preprocessing step of `filterCourseList`. -/
structure SchedUnit where
  unitCode : String
  unitName : String
  activities : List Activity
deriving DecidableEq, Repr

/-- Exceptions thrown by the scheduling code: the explicit
`Invalid time format` error of `convertTo24Hour`, and JavaScript runtime
type errors (accessing or iterating `undefined`). -/
inductive JsError where
  | invalidTimeFormat (time12h : String)
  | typeError
deriving DecidableEq, Repr

/-! ## Association-list primitives for JavaScript objects -/
/-- Reading `m[k]`: `none` is JavaScript `undefined`. -/
def lookupA {α : Type} : List (String × α) → String → Option α
  | [], _ => none
  | (k, v) :: rest, key => if k = key then some v else lookupA rest key

/-- Writing `m[k] = v`: replace in place if the key exists, else append
(JavaScript objects keep insertion order). -/
def setA {α : Type} : List (String × α) → String → α → List (String × α)
  | [], key, v => [(key, v)]
  | (k, w) :: rest, key, v =>
      if k = key then (key, v) :: rest else (k, w) :: setA rest key v

/-! ## The time comparator -/
/-- Numeric value of a decimal digit character. -/
def digitVal (c : Char) : Nat := c.toNat - '0'.toNat

/-- `parseInt` on a string of decimal digits. -/
def digitsVal (cs : List Char) : Nat :=
  cs.foldl (fun a c => 10 * a + digitVal c) 0

/-- `String.prototype.trim`. -/
def trimChars (cs : List Char) : List Char :=
  ((cs.dropWhile Char.isWhitespace).reverse.dropWhile Char.isWhitespace).reverse

/-- The regular expression of `convertTo24Hour`:
`/^(\d{1,2}):(\d{2})(am|pm)$/i`.  On a match it returns the hour value,
the minute value and `true` when the (case-insensitive) modifier is `pm`. -/
def matchTime12 (cs : List Char) : Option (Nat × Nat × Bool) :=
  let hd := cs.takeWhile Char.isDigit
  let rest := cs.dropWhile Char.isDigit
  if hd.length = 0 ∨ 2 < hd.length then none
  else
    match rest with
    | ':' :: m1 :: m2 :: tail =>
        if m1.isDigit && m2.isDigit then
          match tail.map Char.toLower with
          | ['a', 'm'] => some (digitsVal hd, 10 * digitVal m1 + digitVal m2, false)
          | ['p', 'm'] => some (digitsVal hd, 10 * digitVal m1 + digitVal m2, true)
          | _ => none
        else none
    | _ => none

/-- Decimal digits of a natural number (`Number.prototype.toString`). -/
def natDigits (n : Nat) : List Char := Nat.toDigits 10 n

/-- `padStart(2, "0")`. -/
def pad2 (cs : List Char) : List Char :=
  if cs.length < 2 then '0' :: cs else cs

/-- `convertTo24Hour` from the source: convert a 12-hour time string to a
24-hour `"hh:mm:00"` string, throwing `Invalid time format` when the
trimmed input does not match the pattern.  Numeric ranges are not
validated. -/
def convertTo24Hour (time12h : List Char) : Except JsError (List Char) :=
  match matchTime12 (trimChars time12h) with
  | none => .error (.invalidTimeFormat (String.mk time12h))
  | some (h, m, isPm) =>
      let hours := if isPm ∧ h ≠ 12 then h + 12
                   else if ¬ isPm ∧ h = 12 then 0 else h
      .ok (pad2 (natDigits hours) ++ ':' :: pad2 (natDigits m) ++ [':', '0', '0'])

/-- `new Date("1970-01-01T" ++ s)` reduced to seconds past midnight.
The ECMAScript date-time string format requires exactly `hh:mm:ss` with
`hh ≤ 23` (or `24:00:00`), `mm ≤ 59`, `ss ≤ 59`; anything else is an
Invalid Date, modelled as `none`. -/
def dateOf (cs : List Char) : Option Nat :=
  match cs with
  | [h1, h2, ':', m1, m2, ':', s1, s2] =>
      if h1.isDigit && h2.isDigit && m1.isDigit && m2.isDigit
          && s1.isDigit && s2.isDigit then
        let hh := 10 * digitVal h1 + digitVal h2
        let mm := 10 * digitVal m1 + digitVal m2
        let ss := 10 * digitVal s1 + digitVal s2
        if hh ≤ 23 ∧ mm ≤ 59 ∧ ss ≤ 59 then some (3600 * hh + 60 * mm + ss)
        else if hh = 24 ∧ mm = 0 ∧ ss = 0 then some 86400
        else none
      else none
  | _ => none

/-- JavaScript `<` on two `Date` values: any comparison involving an
Invalid Date (`NaN`) is `false`. -/
def instLt : Option Nat → Option Nat → Bool
  | some a, some b => decide (a < b)
  | _, _ => false

/-- `String.prototype.split(" - ")`, scanning left to right. -/
def splitSepAux : List Char → List Char → List (List Char)
  | ' ' :: '-' :: ' ' :: rest, acc => acc.reverse :: splitSepAux rest []
  | c :: rest, acc => splitSepAux rest (c :: acc)
  | [], acc => [acc.reverse]

/-- `time.split(" - ")`. -/
def splitSep (cs : List Char) : List (List Char) := splitSepAux cs []

/-- The time-range parsing performed per candidate course:
`const [startTimeStr, endTimeStr] = course.time.split(" - ")`, then
`new Date("1970-01-01T" + convertTo24Hour(...))` for each side.
A missing right-hand side makes `convertTo24Hour` receive `undefined`,
whose `.trim()` throws a type error. -/
def parseCourseTimes (time : String) : Except JsError (Option Nat × Option Nat) :=
  match splitSep time.toList with
  | [] => .error .typeError
  | [startStr] =>
      match convertTo24Hour startStr with
      | .error e => .error e
      | .ok _ => .error .typeError
  | startStr :: endStr :: _ =>
      match convertTo24Hour startStr with
      | .error e => .error e
      | .ok s24 =>
          match convertTo24Hour endStr with
          | .error e => .error e
          | .ok e24 => .ok (dateOf s24, dateOf e24)

/-- `hasTimeConflict` from `recursiveFunctions.tsx` (the same loop is
inlined in the canonical file): scan the day's committed intervals and
report a conflict on the first `startTime < scheduled.end && endTime >
scheduled.start`. -/
def hasTimeConflict (scheduledTimes : List ScheduledTime)
    (startTime endTime : Option Nat) : Bool :=
  match scheduledTimes with
  | [] => false
  | scheduled :: rest =>
      if instLt startTime scheduled.endTime && instLt scheduled.start endTime then
        true
      else hasTimeConflict rest startTime endTime

/-! ## Stable sorting (Array.prototype.sort) -/
/-- Insert `x` before the first element `y` with `le x y`; this is the
insertion step of a stable sort. -/
def stableInsert {α : Type} (le : α → α → Bool) (x : α) : List α → List α
  | [] => [x]
  | y :: ys => if le x y then x :: y :: ys else y :: stableInsert le x ys

/-- Stable sort; models `Array.prototype.sort(comparator)` for a
consistent comparator, which the ECMAScript specification requires to be
a stable sort. -/
def stableSort {α : Type} (le : α → α → Bool) : List α → List α
  | [] => []
  | x :: xs => stableInsert le x (stableSort le xs)

/-- Comparator `activityA.courses.length - activityB.courses.length`
(ascending number of options). -/
def actLE (a b : Activity) : Bool := a.courses.length ≤ b.courses.length

/-- `sortActivitiesByCourseOptions`: sort a unit's activities by
ascending number of course options. -/
def sortActivitiesByCourseOptions (activities : List Activity) : List Activity :=
  stableSort actLE activities

/-- A unit's total option count: the product of its activities'
course-list lengths (the `reduce` in the unit comparator). -/
def optionCount (u : SchedUnit) : Nat :=
  u.activities.foldl (fun acc a => acc * a.courses.length) 1

/-- Comparator `optionsB - optionsA` (descending total option count). -/
def unitLE (a b : SchedUnit) : Bool := optionCount b ≤ optionCount a

/-! ## State and the commit / uncommit operations -/
/-- The mutable state threaded through the search: the occupied-time
index and the accumulating schedule. -/
structure SchedState where
  times : CourseTimes
  sched : FilteredCourseList
deriving DecidableEq, Repr

/-- `initializeUnitSchedule`: `finalSchedule[unitCode] = {unitName, courses: []}`. -/
def initUnitSchedule (currentUnit : SchedUnit) (st : SchedState) : SchedState :=
  { st with sched := setA st.sched currentUnit.unitCode ⟨currentUnit.unitName, []⟩ }

/-- `scheduleCourse`: push the course onto the unit's schedule entry and
push its interval onto the day's occupied-time list.  Accessing a
missing schedule entry or day entry throws a type error. -/
def scheduleCourse (unitCode : String) (course : Course)
    (startTime endTime : Option Nat) (st : SchedState) :
    Except JsError SchedState :=
  match lookupA st.sched unitCode, lookupA st.times course.day with
  | some e, some l =>
      .ok ⟨setA st.times course.day
             (l ++ [⟨startTime, endTime, unitCode, course.activity⟩]),
           setA st.sched unitCode ⟨e.unitName, e.courses ++ [course]⟩⟩
  | _, _ => .error .typeError

/-- `unscheduleCourse`: pop the unit's last scheduled course and the
day's last committed interval. -/
def unscheduleCourse (unitCode : String) (day : String) (st : SchedState) :
    Except JsError SchedState :=
  match lookupA st.sched unitCode, lookupA st.times day with
  | some e, some l =>
      .ok ⟨setA st.times day l.dropLast,
           setA st.sched unitCode ⟨e.unitName, e.courses.dropLast⟩⟩
  | _, _ => .error .typeError

/-- Termination measure: total size of a list of still-unscheduled units. -/
def sizeUnits (us : List SchedUnit) : Nat :=
  (us.map (fun u => u.activities.length + 2)).sum

def stableInsert_length {α : Type} (le : α → α → Bool) (x : α) (l : List α) :
    (stableInsert le x l).length = l.length + 1 := by
  induction l with
  | nil => rfl
  | cons y ys ih =>
      simp only [stableInsert]
      split <;> simp [ih]

def stableSort_length {α : Type} (le : α → α → Bool) (l : List α) :
    (stableSort le l).length = l.length := by
  induction l with
  | nil => rfl
  | cons x xs ih => simp [stableSort, stableInsert_length, ih]

/-! ## The mutually recursive search

`scheduleUnits` and `scheduleActivities` are the two phases of the
source; the `for (const course of activity.courses)` loop of
`scheduleActivities` is the inner recursion `tryCourses`.  The boolean
result is the source's `boolean` return; the state is returned
explicitly instead of being mutated in place. -/
mutual

/-- `scheduleUnits`: base case success, otherwise initialize the current
unit's entry, sort its activities, and schedule them. -/
def scheduleUnits (us : List SchedUnit) (st : SchedState) :
    Except JsError (Bool × SchedState) :=
  match us with
  | [] => .ok (true, st)
  | u :: rest =>
      scheduleActivities (sortActivitiesByCourseOptions u.activities) rest u
        (initUnitSchedule u st)
termination_by (sizeUnits us, 0)
decreasing_by
  simp [Prod.lex_def, sizeUnits, sortActivitiesByCourseOptions, stableSort_length]

/-- `scheduleActivities`: base case moves to the next unit; otherwise
try the current activity's course options in order. -/
def scheduleActivities (acts : List Activity) (rest : List SchedUnit)
    (currentUnit : SchedUnit) (st : SchedState) :
    Except JsError (Bool × SchedState) :=
  match acts with
  | [] => scheduleUnits rest st
  | a :: more => tryCourses a.courses more rest currentUnit st
termination_by (acts.length + 1 + sizeUnits rest,
  match acts with | [] => 0 | a :: _ => a.courses.length + 1)
decreasing_by
  all_goals simp [Prod.lex_def, sizeUnits]

/-- The `for (const course of activity.courses)` loop: parse the times,
look up the day's list, check for conflicts, tentatively commit, recurse,
and on failure uncommit and continue with the next option. -/
def tryCourses (cs : List Course) (more : List Activity)
    (rest : List SchedUnit) (currentUnit : SchedUnit) (st : SchedState) :
    Except JsError (Bool × SchedState) :=
  match cs with
  | [] => .ok (false, st)
  | c :: cs' =>
      match parseCourseTimes c.time with
      | .error e => .error e
      | .ok iv =>
          match lookupA st.times c.day with
          | none => .error .typeError
          | some scheduled =>
              if hasTimeConflict scheduled iv.1 iv.2 then
                tryCourses cs' more rest currentUnit st
              else
                match scheduleCourse currentUnit.unitCode c iv.1 iv.2 st with
                | .error e => .error e
                | .ok st1 =>
                    match scheduleActivities more rest currentUnit st1 with
                    | .error e => .error e
                    | .ok (true, st2) => .ok (true, st2)
                    | .ok (false, st2) =>
                        match unscheduleCourse currentUnit.unitCode c.day st2 with
                        | .error e => .error e
                        | .ok st3 => tryCourses cs' more rest currentUnit st3
termination_by (more.length + 2 + sizeUnits rest, cs.length)
decreasing_by
  all_goals simp [Prod.lex_def, sizeUnits]

end

/-! ## Preprocessing and the top-level entry point -/
/-- One step of the grouping `reduce`: `(groups[k] ||= []).push(course)`. -/
def pushGroup : List (String × List Course) → String → Course →
    List (String × List Course)
  | [], k, c => [(k, [c])]
  | (k', l) :: rest, k, c =>
      if k' = k then (k', l ++ [c]) :: rest else (k', l) :: pushGroup rest k c

/-- Group a unit's courses by activity-type tag, keys in order of first
appearance and courses in input order within each group. -/
def groupCourses (courses : List Course) : List (String × List Course) :=
  courses.foldl (fun groups c => pushGroup groups c.activity c) []

/-- The `Object.entries(courseList).map(...)` transformation: build one
`SchedUnit` per input unit, its activities being the activity groups. -/
def unitsOf (courseList : CourseList) : List SchedUnit :=
  courseList.map fun p =>
    ⟨p.1, p.2.unitName, (groupCourses p.2.courses).map fun g => ⟨g.1, g.2⟩⟩

/-- The preprocessing pipeline of `filterCourseList`: group, then sort
units by descending total option count. -/
def preprocessedUnits (courseList : CourseList) : List SchedUnit :=
  stableSort unitLE (unitsOf courseList)

/-- The initial occupied-time index: exactly the five weekday keys. -/
def initialTimes : CourseTimes :=
  [("MON", []), ("TUE", []), ("WED", []), ("THU", []), ("FRI", [])]

set_option linter.unusedVariables false in
/-- `filterCourseList`, the exported entry point: preprocess, run the
recursive search from empty state, and return the final schedule on
success or `null` (here `none`) on infeasibility.  The preference
arguments are only printed by the source and do not affect the result. -/
def filterCourseList (courseList : CourseList) (startPref endPref : String)
    (days : List String) (classesPerDay : Nat) (backToBack : Bool) :
    Except JsError (Option FilteredCourseList) :=
  match scheduleUnits (preprocessedUnits courseList) ⟨initialTimes, []⟩ with
  | .error e => .error e
  | .ok (true, st) => .ok (some st.sched)
  | .ok (false, _) => .ok none

/-! ## The search invariant

The occupied-time index must contain exactly the parsed intervals of the
sessions committed in the partial schedule.  `dayContrib` computes one
schedule entry's intervals for one day; `entriesAt` sums them over a
fixed key universe `K` (the codes of all units of the search). -/
/-- The committed intervals contributed by one schedule entry to one day. -/
def dayContrib (k : String) (e : UnitEntry) (d : String) : List ScheduledTime :=
  e.courses.filterMap fun c =>
    if c.day = d then
      match parseCourseTimes c.time with
      | .ok iv => some ⟨iv.1, iv.2, k, c.activity⟩
      | .error _ => none
    else none

/-- The contribution of key `k` of the partial schedule to day `d`. -/
def slotContrib (sched : FilteredCourseList) (k d : String) : List ScheduledTime :=
  match lookupA sched k with
  | some e => dayContrib k e d
  | none => []

/-- All intervals of sessions committed in the partial schedule for day
`d`, collected over the key universe `K`. -/
def entriesAt (sched : FilteredCourseList) (K : List String) (d : String) :
    List ScheduledTime :=
  match K with
  | [] => []
  | k :: ks => slotContrib sched k d ++ entriesAt sched ks d

/-- Two committed intervals are compatible when they do not conflict in
the sense of the conflict check. -/
def compat (a b : ScheduledTime) : Prop :=
  ¬(instLt a.start b.endTime = true ∧ instLt b.start a.endTime = true)

/-- The search invariant over key universe `K`: every day list of the
occupied-time index is pairwise compatible and is (up to permutation)
exactly the intervals of the committed sessions; committed sessions have
parseable times and a day present in the index; the schedule has no keys
outside `K` and no duplicate keys. -/
structure SearchInv (K : List String) (st : SchedState) : Prop where
  timesOk : ∀ d l, lookupA st.times d = some l → l.Pairwise compat
  indexExact : ∀ d l, lookupA st.times d = some l →
    l.Perm (entriesAt st.sched K d)
  parsedOk : ∀ k e, lookupA st.sched k = some e → ∀ c ∈ e.courses,
    (∃ iv, parseCourseTimes c.time = .ok iv) ∧
    (∃ dl, lookupA st.times c.day = some dl)
  outside : ∀ k, k ∉ K → lookupA st.sched k = none
  nodupKeys : (st.sched.map Prod.fst).Nodup

/-- The unit codes of a list of units. -/
def SchedCodes (us : List SchedUnit) : List String := us.map SchedUnit.unitCode

/-- Lookups outside a code set are unchanged. -/
def presOutside (codes : List String) (st st' : SchedState) : Prop :=
  ∀ k, k ∉ codes → lookupA st'.sched k = lookupA st.sched k

/-- What a failed call leaves behind: the occupied-time index is restored
exactly, all schedule lookups outside the remaining units' codes are
restored, and lookups at those codes are either restored or reduced to a
freshly initialized empty entry. -/
def failConc (codes : List String) (st st' : SchedState) : Prop :=
  st'.times = st.times ∧ presOutside codes st st' ∧
  (∀ k ∈ codes, lookupA st'.sched k = lookupA st.sched k ∨
    ∃ nm, lookupA st'.sched k = some (UnitEntry.mk nm [])) ∧
  (st'.sched.map Prod.fst).Nodup

/-- The selection relation: the chosen course is one of the activity's
alternatives. -/
def chooseFrom (a : Activity) (c : Course) : Prop := c ∈ a.courses

/-- A unit fully assigned in the final schedule: its entry holds one
course per activity, in sorted-activity order. -/
def fullAssign (u : SchedUnit) (st' : SchedState) : Prop :=
  ∃ sel, lookupA st'.sched u.unitCode = some ⟨u.unitName, sel⟩ ∧
    List.Forall₂ chooseFrom (sortActivitiesByCourseOptions u.activities) sel

/-- Common success conclusions of the activity-phase calls. -/
def commonSucc (K : List String) (rest : List SchedUnit) (cu : SchedUnit)
    (st st' : SchedState) : Prop :=
  SearchInv K st' ∧
  (∀ k, k ≠ cu.unitCode → k ∉ SchedCodes rest →
    lookupA st'.sched k = lookupA st.sched k) ∧
  ∀ u ∈ rest, fullAssign u st'

/-- Hypotheses carried through the activity phase. -/
def AHyps (K : List String) (rest : List SchedUnit) (cu : SchedUnit)
    (st : SchedState) : Prop :=
  (∀ u ∈ rest, u.unitCode ∈ K) ∧ cu.unitCode ∈ K ∧
  (SchedCodes rest).Nodup ∧ cu.unitCode ∉ SchedCodes rest ∧
  (∀ u ∈ rest, lookupA st.sched u.unitCode = none ∨
    ∃ nm, lookupA st.sched u.unitCode = some (UnitEntry.mk nm [])) ∧
  SearchInv K st

/-- Hypotheses carried through the unit phase. -/
def UHyps (K : List String) (us : List SchedUnit) (st : SchedState) : Prop :=
  (∀ u ∈ us, u.unitCode ∈ K) ∧ (SchedCodes us).Nodup ∧
  (∀ u ∈ us, lookupA st.sched u.unitCode = none ∨
    ∃ nm, lookupA st.sched u.unitCode = some (UnitEntry.mk nm [])) ∧
  SearchInv K st

/-- Conclusions of the course-option loop `tryCourses`. -/
def TConc (K : List String) (cs : List Course) (more : List Activity)
    (rest : List SchedUnit) (cu : SchedUnit) (st : SchedState) : Prop :=
  ∀ b st', tryCourses cs more rest cu st = .ok (b, st') →
    (b = false → failConc (SchedCodes rest) st st') ∧
    (b = true → commonSucc K rest cu st st' ∧
      ∀ en, lookupA st.sched cu.unitCode = some en →
        ∃ c sel, c ∈ cs ∧
          lookupA st'.sched cu.unitCode =
            some ⟨en.unitName, en.courses ++ c :: sel⟩ ∧
          List.Forall₂ chooseFrom more sel)

/-- Conclusions of the activity phase. -/
def AConc (K : List String) (acts : List Activity) (rest : List SchedUnit)
    (cu : SchedUnit) (st : SchedState) : Prop :=
  ∀ b st', scheduleActivities acts rest cu st = .ok (b, st') →
    (b = false → failConc (SchedCodes rest) st st') ∧
    (b = true → commonSucc K rest cu st st' ∧
      ∀ en, lookupA st.sched cu.unitCode = some en →
        ∃ sel, lookupA st'.sched cu.unitCode =
            some ⟨en.unitName, en.courses ++ sel⟩ ∧
          List.Forall₂ chooseFrom acts sel)

/-- Conclusions of the unit phase. -/
def UConc (K : List String) (us : List SchedUnit) (st : SchedState) : Prop :=
  ∀ b st', scheduleUnits us st = .ok (b, st') →
    (b = false → failConc (SchedCodes us) st st') ∧
    (b = true → SearchInv K st' ∧ presOutside (SchedCodes us) st st' ∧
      ∀ u ∈ us, fullAssign u st')

def exCourseA : Course :=
  ⟨"idA", "A", "A name", "LEC cls", "LEC", "MON", "9:00am - 10:00am", "r1", "s1"⟩

def exCourseB : Course :=
  ⟨"idB", "B", "B name", "LEC cls", "LEC", "MON", "9:00am - 10:00am", "r2", "s2"⟩

def exUnitA : SchedUnit := ⟨"A", "A name", []⟩

def exUnitB : SchedUnit := ⟨"B", "B name", [⟨"LEC", [exCourseB]⟩]⟩

def exSt0 : SchedState := ⟨initialTimes, [("A", ⟨"A name", []⟩)]⟩

def exSt1 : SchedState :=
  ⟨[("MON", [⟨some 32400, some 36000, "A", "LEC"⟩]), ("TUE", []), ("WED", []),
    ("THU", []), ("FRI", [])],
   [("A", ⟨"A name", [exCourseA]⟩)]⟩

def exSt2 : SchedState :=
  ⟨[("MON", [⟨some 32400, some 36000, "A", "LEC"⟩]), ("TUE", []), ("WED", []),
    ("THU", []), ("FRI", [])],
   [("A", ⟨"A name", [exCourseA]⟩), ("B", ⟨"B name", []⟩)]⟩

def exSt3 : SchedState :=
  ⟨initialTimes, [("A", ⟨"A name", []⟩), ("B", ⟨"B name", []⟩)]⟩

def exC4good : Course :=
  ⟨"id1", "U1", "U1 name", "cls", "LEC", "MON", "9:00am - 10:00am", "r", "s"⟩

def exC4bad : Course :=
  ⟨"id2", "U1", "U1 name", "cls", "LEC", "MON", "bogus", "r", "s"⟩

def exC4List : CourseList := [("U1", ⟨"U1 name", [exC4good, exC4bad]⟩)]

def exC10sat : Course :=
  ⟨"id2", "U1", "U1 name", "cls", "LEC", "SAT", "9:00am - 10:00am", "r", "s"⟩

def exC10List : CourseList := [("U1", ⟨"U1 name", [exC4good, exC10sat]⟩)]

/-! ## Specification-side notions for infeasibility (C7)

A "conflict-free full assignment" in the sense of the specification:
choose one session per activity of every unit such that no two chosen
sessions on the same day have overlapping parsed intervals.  These
definitions follow the specification's words, to be compared with what
the scheduler computes. -/
/-- All ways to choose one course per activity, in activity order. -/
def productChoices : List Activity → List (List Course)
  | [] => [[]]
  | a :: as => a.courses.flatMap fun c => (productChoices as).map (c :: ·)

/-- All ways to choose one course per activity of one unit. -/
def unitChoices (u : SchedUnit) : List (List Course) :=
  productChoices u.activities

/-- All ways to choose one course per activity of every unit,
concatenated in unit order. -/
def allChoices : List SchedUnit → List (List Course)
  | [] => [[]]
  | u :: us => (unitChoices u).flatMap fun sel => (allChoices us).map (sel ++ ·)

/-- The specification's conflict between two chosen sessions: same day
tag and overlapping parsed half-open intervals. -/
def coursesConflict (c1 c2 : Course) : Bool :=
  c1.day == c2.day &&
    (match parseCourseTimes c1.time, parseCourseTimes c2.time with
     | .ok (s1, t1), .ok (s2, t2) => instLt s1 t2 && instLt s2 t1
     | _, _ => false)

/-- A selection is conflict-free when no (ordered) pair conflicts. -/
def pairwiseOk : List Course → Bool
  | [] => true
  | c :: cs => cs.all (fun c2 => !coursesConflict c c2) && pairwiseOk cs

/-- Whether some full selection over the given units is conflict-free. -/
def existsValidChoice (us : List SchedUnit) : Bool :=
  (allChoices us).any pairwiseOk

/-- A session with parseable time text and a weekday day tag. -/
def wfCourse (c : Course) : Bool :=
  (match parseCourseTimes c.time with
   | .ok _ => true
   | .error _ => false) &&
  decide (c.day ∈ initialTimes.map Prod.fst)

/-- All sessions of the input are well-formed. -/
def wfInput (cl : CourseList) : Bool :=
  cl.all fun p => p.2.courses.all wfCourse

/-- Times of the state cover all five weekday keys. -/
def TimesWf (st : SchedState) : Prop :=
  ∀ d ∈ initialTimes.map Prod.fst, ∃ l, lookupA st.times d = some l

/-- All sessions of a unit are well-formed. -/
def WfUnit (u : SchedUnit) : Prop :=
  ∀ a ∈ u.activities, ∀ c ∈ a.courses, wfCourse c = true

/-! ## Concrete instantiations of the claims -/
/-- One course for unit `B` on Monday 10–11, used to instantiate the
soundness and completeness claims on a two-unit input. -/
def exWcB : Course :=
  ⟨"idB", "B", "B name", "cls", "LEC", "MON", "10:00am - 11:00am", "r", "s"⟩

def exW1List : CourseList :=
  [("A", ⟨"A name", [exCourseA]⟩), ("B", ⟨"B name", [exWcB]⟩)]

def exW1fs : FilteredCourseList :=
  [("A", ⟨"A name", [exCourseA]⟩), ("B", ⟨"B name", [exWcB]⟩)]

/-- The malformed-time scenario of the specification: the start side of
the range is missing its am/pm marker. -/
def exC4wCourse : Course :=
  ⟨"id1", "U1", "U1 name", "cls", "LEC", "MON", "9:00 - 10:00am", "r", "s"⟩

def exC4wList : CourseList := [("U1", ⟨"U1 name", [exC4wCourse]⟩)]

def exC4wUnit : SchedUnit := ⟨"U1", "U1 name", [⟨"LEC", [exC4wCourse]⟩]⟩

/-- The state reached by scheduling the single unit `B` from the empty
initial state. -/
def exStC6 : SchedState :=
  ⟨[("MON", [⟨some 32400, some 36000, "B", "LEC"⟩]), ("TUE", []), ("WED", []),
    ("THU", []), ("FRI", [])],
   [("B", ⟨"B name", [exCourseB]⟩)]⟩

/-- Two single-option activities of one unit, both on Saturday at the
same hour: every full choice conflicts, yet the day tag lies outside the
occupied-time index. -/
def exC7L : Course :=
  ⟨"id1", "U1", "U1 name", "cls", "LEC", "SAT", "9:00am - 10:00am", "r", "s"⟩

def exC7T : Course :=
  ⟨"id2", "U1", "U1 name", "cls", "TUT", "SAT", "9:00am - 10:00am", "r", "s"⟩

def exC7List : CourseList := [("U1", ⟨"U1 name", [exC7L, exC7T]⟩)]

/-- The forced-conflict scenario of the specification: one unit, two
single-option activities, both Monday 9–10. -/
def exC7wL : Course :=
  ⟨"id1", "U1", "U1 name", "cls", "LEC", "MON", "9:00am - 10:00am", "r", "s"⟩

def exC7wT : Course :=
  ⟨"id2", "U1", "U1 name", "cls", "TUT", "MON", "9:00am - 10:00am", "r", "s"⟩

def exC7wList : CourseList := [("U1", ⟨"U1 name", [exC7wL, exC7wT]⟩)]

/-- A single Saturday session that is the first candidate examined. -/
def exC10wCourse : Course :=
  ⟨"id1", "U1", "U1 name", "cls", "LEC", "SAT", "9:00am - 10:00am", "r", "s"⟩

def exC10wList : CourseList := [("U1", ⟨"U1 name", [exC10wCourse]⟩)]

def exC10wUnit : SchedUnit := ⟨"U1", "U1 name", [⟨"LEC", [exC10wCourse]⟩]⟩

/-! ## Basic lemmas about the association-list primitives -/
theorem lookupA_setA_self {α : Type} (m : List (String × α)) (k : String) (v : α) :
    lookupA (setA m k v) k = some v := by
  induction m with
  | nil => simp [setA, lookupA]
  | cons p rest ih =>
      obtain ⟨k', w⟩ := p
      by_cases h : k' = k <;> simp [setA, lookupA, h, ih]

theorem lookupA_setA_ne {α : Type} (m : List (String × α)) (k k' : String)
    (v : α) (h : k' ≠ k) : lookupA (setA m k v) k' = lookupA m k' := by
  induction m with
  | nil => simp [setA, lookupA, Ne.symm h]
  | cons p rest ih =>
      obtain ⟨k0, w⟩ := p
      by_cases h0 : k0 = k
      · subst h0
        simp [setA, lookupA, Ne.symm h]
      · by_cases h1 : k0 = k'
        · subst h1
          simp [setA, lookupA, h0]
        · simp [setA, lookupA, h0, h1, ih]

theorem setA_of_lookupA_eq {α : Type} (m : List (String × α)) (k : String)
    (v : α) (h : lookupA m k = some v) : setA m k v = m := by
  induction m with
  | nil => simp [lookupA] at h
  | cons p rest ih =>
      obtain ⟨k0, w⟩ := p
      by_cases h0 : k0 = k
      · subst h0
        simp [lookupA] at h
        simp [setA, h]
      · simp [lookupA, h0] at h
        simp [setA, h0, ih h]

theorem setA_setA {α : Type} (m : List (String × α)) (k : String) (v w : α) :
    setA (setA m k v) k w = setA m k w := by
  induction m with
  | nil => simp [setA]
  | cons p rest ih =>
      obtain ⟨k0, u⟩ := p
      by_cases h0 : k0 = k <;> simp [setA, h0, ih]

theorem lookupA_eq_none_iff {α : Type} (m : List (String × α)) (k : String) :
    lookupA m k = none ↔ k ∉ m.map Prod.fst := by
  induction m with
  | nil => simp [lookupA]
  | cons p rest ih =>
      obtain ⟨k0, w⟩ := p
      by_cases h0 : k0 = k
      · subst h0
        simp [lookupA]
      · rw [show lookupA ((k0, w) :: rest) k = lookupA rest k from by
            simp [lookupA, h0], ih]
        simp [List.mem_cons, Ne.symm h0]

theorem keys_setA_of_lookupA_some {α : Type} (m : List (String × α)) (k : String)
    (v w : α) (h : lookupA m k = some w) :
    (setA m k v).map Prod.fst = m.map Prod.fst := by
  induction m with
  | nil => simp [lookupA] at h
  | cons p rest ih =>
      obtain ⟨k0, u⟩ := p
      by_cases h0 : k0 = k
      · subst h0; simp [setA]
      · simp [lookupA, h0] at h
        simp [setA, h0, ih h]

theorem keys_setA_of_lookupA_none {α : Type} (m : List (String × α)) (k : String)
    (v : α) (h : lookupA m k = none) :
    (setA m k v).map Prod.fst = m.map Prod.fst ++ [k] := by
  induction m with
  | nil => simp [setA]
  | cons p rest ih =>
      obtain ⟨k0, u⟩ := p
      by_cases h0 : k0 = k
      · subst h0; simp [lookupA] at h
      · simp [lookupA, h0] at h
        simp [setA, h0, ih h]

theorem nodup_keys_setA {α : Type} (m : List (String × α)) (k : String) (v : α)
    (h : (m.map Prod.fst).Nodup) : ((setA m k v).map Prod.fst).Nodup := by
  cases hl : lookupA m k with
  | none =>
      rw [keys_setA_of_lookupA_none m k v hl]
      rw [lookupA_eq_none_iff] at hl
      simp [List.nodup_append, h, hl]
  | some w => rw [keys_setA_of_lookupA_some m k v w hl]; exact h

theorem lookupA_mem_keys {α : Type} {m : List (String × α)} {k : String} {v : α}
    (h : lookupA m k = some v) : k ∈ m.map Prod.fst := by
  by_contra hk
  rw [← lookupA_eq_none_iff] at hk
  rw [h] at hk
  exact Option.noConfusion hk

/-! ## The conflict predicate -/
/-- The loop of `hasTimeConflict` reports a conflict exactly when some
committed interval satisfies `start < scheduled.end && end > scheduled.start`. -/
theorem hasTimeConflict_iff (l : List ScheduledTime) (s e : Option Nat) :
    hasTimeConflict l s e = true ↔
      ∃ t ∈ l, instLt s t.endTime = true ∧ instLt t.start e = true := by
  induction l with
  | nil => simp [hasTimeConflict]
  | cons t rest ih =>
      simp only [hasTimeConflict]
      by_cases h : (instLt s t.endTime && instLt t.start e) = true
      · rw [if_pos h]
        simp only [Bool.and_eq_true] at h
        exact ⟨fun _ => ⟨t, List.mem_cons_self t rest, h⟩, fun _ => rfl⟩
      · rw [if_neg h, ih]
        simp only [Bool.and_eq_true] at h
        constructor
        · rintro ⟨x, hx, hc⟩
          exact ⟨x, List.mem_cons_of_mem t hx, hc⟩
        · rintro ⟨x, hx, hc⟩
          rcases List.mem_cons.mp hx with rfl | hx
          · exact absurd hc h
          · exact ⟨x, hx, hc⟩

theorem hasTimeConflict_none_left (l : List ScheduledTime) (e : Option Nat) :
    hasTimeConflict l none e = false := by
  induction l with
  | nil => rfl
  | cons t rest ih => simp [hasTimeConflict, instLt, ih]

theorem hasTimeConflict_none_right (l : List ScheduledTime) (s : Option Nat) :
    hasTimeConflict l s none = false := by
  induction l with
  | nil => rfl
  | cons t rest ih =>
      simp [hasTimeConflict, ih]
      cases hs : instLt s t.endTime <;> simp [instLt]

/-! ## Stable sort theory -/
theorem mem_stableInsert {α : Type} (le : α → α → Bool) (x a : α) (l : List α) :
    a ∈ stableInsert le x l ↔ a = x ∨ a ∈ l := by
  induction l with
  | nil => simp [stableInsert]
  | cons y ys ih =>
      by_cases h : le x y
      · simp [stableInsert, h]
      · simp only [stableInsert, if_neg h, List.mem_cons, ih]
        tauto

theorem stableInsert_perm {α : Type} (le : α → α → Bool) (x : α) (l : List α) :
    (stableInsert le x l).Perm (x :: l) := by
  induction l with
  | nil => simp [stableInsert]
  | cons y ys ih =>
      by_cases h : le x y
      · simp [stableInsert, h]
      · rw [show stableInsert le x (y :: ys) = y :: stableInsert le x ys from by
            simp [stableInsert, h]]
        exact (ih.cons y).trans (List.Perm.swap x y ys)

theorem stableSort_perm {α : Type} (le : α → α → Bool) (l : List α) :
    (stableSort le l).Perm l := by
  induction l with
  | nil => simp [stableSort]
  | cons x xs ih =>
      exact ((stableInsert_perm le x (stableSort le xs)).trans (ih.cons x))

theorem stableInsert_pairwise {α : Type} (le : α → α → Bool)
    (htot : ∀ a b, le a b = true ∨ le b a = true)
    (htrans : ∀ a b c, le a b = true → le b c = true → le a c = true)
    (x : α) (l : List α) (hl : l.Pairwise (fun a b => le a b = true)) :
    (stableInsert le x l).Pairwise (fun a b => le a b = true) := by
  induction l with
  | nil => simp [stableInsert]
  | cons y ys ih =>
      rw [List.pairwise_cons] at hl
      by_cases h : le x y
      · simp only [stableInsert, h, if_pos]
        rw [List.pairwise_cons]
        refine ⟨?_, List.pairwise_cons.mpr hl⟩
        intro z hz
        rcases List.mem_cons.mp hz with rfl | hz
        · exact h
        · exact htrans x y z h (hl.1 z hz)
      · simp only [stableInsert, h, if_neg, Bool.not_eq_true]
        rw [List.pairwise_cons]
        refine ⟨?_, ih hl.2⟩
        intro z hz
        rcases (mem_stableInsert le x z ys).mp hz with rfl | hz
        · rcases htot z y with hc | hc
          · exact absurd hc (by simpa using h)
          · exact hc
        · exact hl.1 z hz

theorem stableSort_pairwise {α : Type} (le : α → α → Bool)
    (htot : ∀ a b, le a b = true ∨ le b a = true)
    (htrans : ∀ a b c, le a b = true → le b c = true → le a c = true)
    (l : List α) :
    (stableSort le l).Pairwise (fun a b => le a b = true) := by
  induction l with
  | nil => simp [stableSort]
  | cons x xs ih => exact stableInsert_pairwise le htot htrans x _ ih

theorem filter_stableInsert {α : Type} (le : α → α → Bool) (p : α → Bool)
    (hp : ∀ a b, p a = true → p b = true → le a b = true)
    (x : α) (l : List α) :
    (stableInsert le x l).filter p =
      if p x then x :: l.filter p else l.filter p := by
  induction l with
  | nil => by_cases h : p x <;> simp [stableInsert, List.filter, h]
  | cons y ys ih =>
      by_cases h : le x y
      · by_cases hx : p x <;> simp [stableInsert, h, List.filter_cons, hx]
      · simp only [stableInsert, h, if_neg, Bool.not_eq_true]
        by_cases hx : p x
        · have hy : p y = false := by
            by_contra hy
            rw [Bool.not_eq_false] at hy
            exact (by simpa using h : ¬ le x y = true) (hp x y hx hy)
          simp [List.filter_cons, hy, ih, hx]
        · by_cases hy : p y <;>
            simp [List.filter_cons, hy, ih, hx]

theorem filter_stableSort {α : Type} (le : α → α → Bool) (p : α → Bool)
    (hp : ∀ a b, p a = true → p b = true → le a b = true) (l : List α) :
    (stableSort le l).filter p = l.filter p := by
  induction l with
  | nil => simp [stableSort]
  | cons x xs ih =>
      rw [stableSort, filter_stableInsert le p hp, ih]
      by_cases hx : p x <;> simp [List.filter_cons, hx]

theorem unitLE_total (a b : SchedUnit) : unitLE a b = true ∨ unitLE b a = true := by
  simp [unitLE]; omega

theorem unitLE_trans (a b c : SchedUnit) (h1 : unitLE a b = true)
    (h2 : unitLE b c = true) : unitLE a c = true := by
  simp [unitLE] at h1 h2 ⊢; omega

theorem actLE_total (a b : Activity) : actLE a b = true ∨ actLE b a = true := by
  simp [actLE]; omega

theorem actLE_trans (a b c : Activity) (h1 : actLE a b = true)
    (h2 : actLE b c = true) : actLE a c = true := by
  simp [actLE] at h1 h2 ⊢; omega

/-- C3: for every candidate interval and committed list, the conflict
check reports a conflict iff some committed interval `[cs, ce)` satisfies
`s < ce` and `e > cs`; and the touching sessions 9:00am-10:00am and
10:00am-11:00am (whose parsed instants are 32400/36000 and 36000/39600
seconds) are not flagged as conflicting. -/
theorem claim_C3 :
    (∀ (l : List ScheduledTime) (s e : Option Nat),
        hasTimeConflict l s e = true ↔
          ∃ t ∈ l, instLt s t.endTime = true ∧ instLt t.start e = true) ∧
    parseCourseTimes "9:00am - 10:00am" = .ok (some 32400, some 36000) ∧
    parseCourseTimes "10:00am - 11:00am" = .ok (some 36000, some 39600) ∧
    (∀ u a, hasTimeConflict [⟨some 32400, some 36000, u, a⟩]
        (some 36000) (some 39600) = false) :=
  ⟨hasTimeConflict_iff, by rfl, by rfl, fun u a => by rfl⟩

/-- C9: `convertTo24Hour` fails exactly when the trimmed input does not
match the shape pattern; numeric ranges are never checked, so `13:00pm`
yields the out-of-range string `25:00:00` and `9:75am` yields `09:75:00`,
both of which produce an Invalid Date, and a session with an invalid
instant passes the conflict check against every committed interval. -/
theorem claim_C9 :
    (∀ cs : List Char,
        (∃ e, convertTo24Hour cs = .error e) ↔ matchTime12 (trimChars cs) = none) ∧
    convertTo24Hour "13:00pm".toList = .ok "25:00:00".toList ∧
    dateOf "25:00:00".toList = none ∧
    convertTo24Hour "9:75am".toList = .ok "09:75:00".toList ∧
    dateOf "09:75:00".toList = none ∧
    (∀ (l : List ScheduledTime) (e : Option Nat),
        hasTimeConflict l none e = false) ∧
    (∀ (l : List ScheduledTime) (s : Option Nat),
        hasTimeConflict l s none = false) := by
  refine ⟨?_, by rfl, by rfl, by rfl, by rfl,
    hasTimeConflict_none_left, hasTimeConflict_none_right⟩
  intro cs
  constructor
  · rintro ⟨e, he⟩
    cases hm : matchTime12 (trimChars cs) with
    | none => rfl
    | some v =>
        obtain ⟨h, m, isPm⟩ := v
        simp only [convertTo24Hour, hm] at he
        exact Except.noConfusion he
  · intro hm
    exact ⟨.invalidTimeFormat (String.mk cs), by simp only [convertTo24Hour, hm]⟩

/-- C8: the preprocessing pipeline sorts the units by descending total
option count (product of the activities' session-list lengths), and
`sortActivitiesByCourseOptions` sorts each unit's activities by ascending
number of session alternatives; both are permutations, and elements with
equal count keep their original relative order. -/
theorem claim_C8 :
    (∀ courseList : CourseList,
        (preprocessedUnits courseList).Perm (unitsOf courseList) ∧
        (preprocessedUnits courseList).Pairwise
          (fun a b => optionCount b ≤ optionCount a) ∧
        ∀ n, (preprocessedUnits courseList).filter (fun u => optionCount u == n) =
          (unitsOf courseList).filter (fun u => optionCount u == n)) ∧
    (∀ activities : List Activity,
        (sortActivitiesByCourseOptions activities).Perm activities ∧
        (sortActivitiesByCourseOptions activities).Pairwise
          (fun a b => a.courses.length ≤ b.courses.length) ∧
        ∀ n, (sortActivitiesByCourseOptions activities).filter
            (fun a => a.courses.length == n) =
          activities.filter (fun a => a.courses.length == n)) := by
  constructor
  · intro cl
    refine ⟨stableSort_perm _ _, ?_, ?_⟩
    · have hp := stableSort_pairwise unitLE unitLE_total unitLE_trans (unitsOf cl)
      exact hp.imp (fun h => by simpa [unitLE] using h)
    · intro n
      refine filter_stableSort unitLE _ ?_ _
      intro a b ha hb
      simp only [beq_iff_eq] at ha hb
      simp [unitLE, ha, hb]
  · intro acts
    refine ⟨stableSort_perm _ _, ?_, ?_⟩
    · have hp := stableSort_pairwise actLE actLE_total actLE_trans acts
      exact hp.imp (fun h => by simpa [actLE] using h)
    · intro n
      refine filter_stableSort actLE _ ?_ _
      intro a b ha hb
      simp only [beq_iff_eq] at ha hb
      simp [actLE, ha, hb]

theorem compat_symm {a b : ScheduledTime} (h : compat a b) : compat b a := by
  intro ⟨h1, h2⟩; exact h ⟨h2, h1⟩

/-! ## Lemmas about the contribution functions -/
theorem slotContrib_congr {s1 s2 : FilteredCourseList} {k : String}
    (h : lookupA s1 k = lookupA s2 k) (d : String) :
    slotContrib s1 k d = slotContrib s2 k d := by
  simp [slotContrib, h]

theorem entriesAt_congr {s1 s2 : FilteredCourseList} {K : List String}
    (h : ∀ k ∈ K, lookupA s1 k = lookupA s2 k) (d : String) :
    entriesAt s1 K d = entriesAt s2 K d := by
  induction K with
  | nil => rfl
  | cons k ks ih =>
      simp only [entriesAt]
      rw [slotContrib_congr (h k (List.mem_cons_self k ks)) d,
        ih (fun k' hk' => h k' (List.mem_cons_of_mem k hk'))]

/-- Replacing the entry at a key occurring once in `K` replaces exactly
that slot's contribution. -/
theorem entriesAt_setA {m : FilteredCourseList} {K : List String}
    {k0 : String} (hK : K.Nodup) (hk0 : k0 ∈ K) (e1 : UnitEntry) (d : String) :
    ∃ A B, entriesAt m K d = A ++ slotContrib m k0 d ++ B ∧
      entriesAt (setA m k0 e1) K d = A ++ dayContrib k0 e1 d ++ B := by
  induction K with
  | nil => exact absurd hk0 (List.not_mem_nil k0)
  | cons k ks ih =>
      rw [List.nodup_cons] at hK
      rcases List.mem_cons.mp hk0 with rfl | hk0'
      · refine ⟨[], entriesAt m ks d, by simp [entriesAt], ?_⟩
        have hrest : entriesAt (setA m k0 e1) ks d = entriesAt m ks d := by
          refine entriesAt_congr (fun k' hk' => ?_) d
          exact lookupA_setA_ne m k0 k' e1 (fun hke => hK.1 (hke ▸ hk'))
        simp [entriesAt, hrest, slotContrib, lookupA_setA_self]
      · obtain ⟨A, B, hold, hnew⟩ := ih hK.2 hk0'
        have hk0ne : k ≠ k0 := fun hke => hK.1 (hke ▸ hk0')
        refine ⟨slotContrib m k d ++ A, B, ?_, ?_⟩
        · simp [entriesAt, hold]
        · have hslot : slotContrib (setA m k0 e1) k d = slotContrib m k d :=
            slotContrib_congr (lookupA_setA_ne m k0 k e1 hk0ne) d
          simp [entriesAt, hslot, hnew]

/-- Each slot's contribution is a factor of `entriesAt`. -/
theorem entriesAt_slot_decomp {m : FilteredCourseList} {K : List String}
    {k0 : String} (hk0 : k0 ∈ K) (d : String) :
    ∃ A B, entriesAt m K d = A ++ slotContrib m k0 d ++ B := by
  induction K with
  | nil => exact absurd hk0 (List.not_mem_nil k0)
  | cons k ks ih =>
      rcases List.mem_cons.mp hk0 with rfl | hk0'
      · exact ⟨[], entriesAt m ks d, by simp [entriesAt]⟩
      · obtain ⟨A, B, hold⟩ := ih hk0'
        exact ⟨slotContrib m k d ++ A, B, by simp [entriesAt, hold]⟩

theorem dayContrib_append {nm : String} {cs : List Course} {c : Course}
    {iv : Option Nat × Option Nat} (hparse : parseCourseTimes c.time = .ok iv)
    (k d : String) :
    dayContrib k ⟨nm, cs ++ [c]⟩ d = dayContrib k ⟨nm, cs⟩ d ++
      (if c.day = d then [⟨iv.1, iv.2, k, c.activity⟩] else []) := by
  simp only [dayContrib, List.filterMap_append]
  congr 1
  by_cases hd : c.day = d <;> simp [List.filterMap, hd, hparse]

theorem dayContrib_mem {k : String} {e : UnitEntry} {d : String} {c : Course}
    {iv : Option Nat × Option Nat} (hc : c ∈ e.courses) (hd : c.day = d)
    (hparse : parseCourseTimes c.time = .ok iv) :
    (⟨iv.1, iv.2, k, c.activity⟩ : ScheduledTime) ∈ dayContrib k e d := by
  rw [dayContrib, List.mem_filterMap]
  exact ⟨c, hc, by simp [hd, hparse]⟩

theorem hasTimeConflict_eq_false_iff (l : List ScheduledTime) (s e : Option Nat) :
    hasTimeConflict l s e = false ↔
      ∀ t ∈ l, ¬(instLt s t.endTime = true ∧ instLt t.start e = true) := by
  constructor
  · intro h t ht hc
    have hb := (hasTimeConflict_iff l s e).mpr ⟨t, ht, hc⟩
    rw [h] at hb
    exact Bool.noConfusion hb
  · intro h
    cases hb : hasTimeConflict l s e with
    | false => rfl
    | true =>
        obtain ⟨t, ht, hc⟩ := (hasTimeConflict_iff l s e).mp hb
        exact absurd hc (h t ht)

theorem entriesAt_congr_slot {s1 s2 : FilteredCourseList} {K : List String}
    {d : String} (h : ∀ k ∈ K, slotContrib s1 k d = slotContrib s2 k d) :
    entriesAt s1 K d = entriesAt s2 K d := by
  induction K with
  | nil => rfl
  | cons k ks ih =>
      simp only [entriesAt]
      rw [h k (List.mem_cons_self k ks),
        ih (fun k' hk' => h k' (List.mem_cons_of_mem k hk'))]

theorem dayContrib_nil (k nm d : String) :
    dayContrib k (UnitEntry.mk nm []) d = [] := rfl

/-- Dismantle a successful `scheduleCourse` call. -/
theorem scheduleCourse_ok {k : String} {c : Course} {s e : Option Nat}
    {st st1 : SchedState} (h : scheduleCourse k c s e st = .ok st1) :
    ∃ en l, lookupA st.sched k = some en ∧ lookupA st.times c.day = some l ∧
      st1 = ⟨setA st.times c.day (l ++ [⟨s, e, k, c.activity⟩]),
             setA st.sched k ⟨en.unitName, en.courses ++ [c]⟩⟩ := by
  rcases hsch : lookupA st.sched k with _ | en
  · rcases hday : lookupA st.times c.day with _ | l <;>
      simp only [scheduleCourse, hsch, hday] at h <;>
        exact Except.noConfusion h
  · rcases hday : lookupA st.times c.day with _ | l
    · simp only [scheduleCourse, hsch, hday] at h
      exact Except.noConfusion h
    · simp only [scheduleCourse, hsch, hday] at h
      injection h with h
      exact ⟨en, l, rfl, rfl, h.symm⟩

/-- Dismantle a successful `unscheduleCourse` call. -/
theorem unscheduleCourse_ok {k day : String} {st st1 : SchedState}
    (h : unscheduleCourse k day st = .ok st1) :
    ∃ en l, lookupA st.sched k = some en ∧ lookupA st.times day = some l ∧
      st1 = ⟨setA st.times day l.dropLast,
             setA st.sched k ⟨en.unitName, en.courses.dropLast⟩⟩ := by
  rcases hsch : lookupA st.sched k with _ | en
  · rcases hday : lookupA st.times day with _ | l <;>
      simp only [unscheduleCourse, hsch, hday] at h <;>
        exact Except.noConfusion h
  · rcases hday : lookupA st.times day with _ | l
    · simp only [unscheduleCourse, hsch, hday] at h
      exact Except.noConfusion h
    · simp only [unscheduleCourse, hsch, hday] at h
      injection h with h
      exact ⟨en, l, rfl, rfl, h.symm⟩

/-- A failed call's residue preserves the search invariant, because every
entry it may have reset or created is empty. -/
theorem inv_of_failConc {K codes : List String} {st st' : SchedState}
    (hsub : ∀ k ∈ codes, k ∈ K) (hinv : SearchInv K st)
    (hemp : ∀ k ∈ codes, lookupA st.sched k = none ∨
      ∃ nm, lookupA st.sched k = some (UnitEntry.mk nm []))
    (hf : failConc codes st st') : SearchInv K st' := by
  obtain ⟨htimes, hpres, hin, hnodup⟩ := hf
  have hslots : ∀ d, entriesAt st'.sched K d = entriesAt st.sched K d := by
    intro d
    refine entriesAt_congr_slot (fun k hk => ?_)
    by_cases hc : k ∈ codes
    · rcases hin k hc with heq | ⟨nm, hempty⟩
      · exact slotContrib_congr heq d
      · rcases hemp k hc with h0 | ⟨nm0, h0⟩ <;>
          simp [slotContrib, hempty, h0, dayContrib_nil]
    · exact slotContrib_congr (hpres k hc) d
  refine ⟨?_, ?_, ?_, ?_, hnodup⟩
  · intro d l hl; rw [htimes] at hl; exact hinv.timesOk d l hl
  · intro d l hl
    rw [htimes] at hl
    rw [hslots d]
    exact hinv.indexExact d l hl
  · intro k e hk c hc
    by_cases hcod : k ∈ codes
    · rcases hin k hcod with heq | ⟨nm, hempty⟩
      · rw [heq] at hk
        obtain ⟨hiv, dl, hdl⟩ := hinv.parsedOk k e hk c hc
        exact ⟨hiv, dl, by rw [htimes]; exact hdl⟩
      · rw [hempty, Option.some_inj] at hk
        subst hk
        exact absurd hc (List.not_mem_nil c)
    · rw [hpres k hcod] at hk
      obtain ⟨hiv, dl, hdl⟩ := hinv.parsedOk k e hk c hc
      exact ⟨hiv, dl, by rw [htimes]; exact hdl⟩
  · intro k hk
    have hcod : k ∉ codes := fun hc => hk (hsub k hc)
    rw [hpres k hcod]
    exact hinv.outside k hk

/-- Committing a non-conflicting, successfully parsed course preserves
the search invariant. -/
theorem scheduleCourse_inv {K : List String} (hK : K.Nodup) {st : SchedState}
    (hinv : SearchInv K st) {k : String} (hk : k ∈ K) {c : Course}
    {iv : Option Nat × Option Nat} (hparse : parseCourseTimes c.time = .ok iv)
    {scheduled : List ScheduledTime}
    (hday : lookupA st.times c.day = some scheduled)
    (hnc : hasTimeConflict scheduled iv.1 iv.2 = false)
    {en : UnitEntry} (hen : lookupA st.sched k = some en) :
    SearchInv K ⟨setA st.times c.day
        (scheduled ++ [⟨iv.1, iv.2, k, c.activity⟩]),
      setA st.sched k ⟨en.unitName, en.courses ++ [c]⟩⟩ := by
  have hcross : ∀ a ∈ scheduled,
      compat a ⟨iv.1, iv.2, k, c.activity⟩ := by
    intro a ha ⟨h1, h2⟩
    exact (hasTimeConflict_eq_false_iff scheduled iv.1 iv.2).mp hnc a ha ⟨h2, h1⟩
  constructor
  · intro d l hl
    by_cases hd : d = c.day
    · subst hd
      rw [lookupA_setA_self, Option.some_inj] at hl
      subst hl
      rw [List.pairwise_append]
      exact ⟨hinv.timesOk c.day scheduled hday, List.pairwise_singleton _ _,
        fun a ha b hb => (List.mem_singleton.mp hb) ▸ hcross a ha⟩
    · rw [lookupA_setA_ne st.times c.day d _ hd] at hl
      exact hinv.timesOk d l hl
  · intro d l hl
    obtain ⟨A, B, hold, hnew⟩ :=
      entriesAt_setA (m := st.sched) hK hk ⟨en.unitName, en.courses ++ [c]⟩ d
    rw [dayContrib_append hparse k d] at hnew
    have hslot : slotContrib st.sched k d =
        dayContrib k ⟨en.unitName, en.courses⟩ d := by
      simp [slotContrib, hen]
    rw [hslot] at hold
    by_cases hd : c.day = d
    · subst hd
      rw [lookupA_setA_self, Option.some_inj] at hl
      subst hl
      have hp : scheduled.Perm
          (A ++ dayContrib k ⟨en.unitName, en.courses⟩ c.day ++ B) := by
        rw [← hold]; exact hinv.indexExact c.day scheduled hday
      rw [hnew, if_pos rfl, List.perm_iff_count]
      intro a
      have hc := hp.count_eq a
      simp only [List.count_append] at hc ⊢
      omega
    · rw [lookupA_setA_ne st.times c.day d _ (fun h => hd h.symm)] at hl
      rw [hnew, if_neg hd]
      simp only [List.append_nil]
      rw [← hold]
      exact hinv.indexExact d l hl
  · intro k' e' hk' c' hc'
    have htday : ∀ day', (∃ dl, lookupA st.times day' = some dl) →
        ∃ dl, lookupA (setA st.times c.day
          (scheduled ++ [⟨iv.1, iv.2, k, c.activity⟩])) day' = some dl := by
      intro day' ⟨dl, hdl⟩
      by_cases hd : day' = c.day
      · subst hd; exact ⟨_, lookupA_setA_self _ _ _⟩
      · exact ⟨dl, by rw [lookupA_setA_ne st.times c.day day' _ hd]; exact hdl⟩
    by_cases hkk : k' = k
    · subst hkk
      rw [lookupA_setA_self, Option.some_inj] at hk'
      subst hk'
      rcases List.mem_append.mp hc' with holdc | hnewc
      · obtain ⟨hiv, hdl⟩ := hinv.parsedOk k' en hen c' holdc
        exact ⟨hiv, htday c'.day hdl⟩
      · rw [List.mem_singleton.mp hnewc]
        exact ⟨⟨iv, hparse⟩, htday c.day ⟨scheduled, hday⟩⟩
    · rw [lookupA_setA_ne st.sched k k' _ hkk] at hk'
      obtain ⟨hiv, hdl⟩ := hinv.parsedOk k' e' hk' c' hc'
      exact ⟨hiv, htday c'.day hdl⟩
  · intro k' hk'
    rw [lookupA_setA_ne st.sched k k' _ (fun h => hk' (h ▸ hk))]
    exact hinv.outside k' hk'
  · exact keys_setA_of_lookupA_some st.sched k _ en hen ▸ hinv.nodupKeys

/-- Initializing a unit entry that is absent or empty preserves the
search invariant. -/
theorem initUnitSchedule_inv {K : List String} (hK : K.Nodup) {st : SchedState}
    (hinv : SearchInv K st) {u : SchedUnit} (hu : u.unitCode ∈ K)
    (hemp : lookupA st.sched u.unitCode = none ∨
      ∃ nm, lookupA st.sched u.unitCode = some (UnitEntry.mk nm [])) :
    SearchInv K (initUnitSchedule u st) := by
  have hsched : (initUnitSchedule u st).sched =
      setA st.sched u.unitCode ⟨u.unitName, []⟩ := rfl
  have hslots : ∀ d, entriesAt (initUnitSchedule u st).sched K d =
      entriesAt st.sched K d := by
    intro d
    obtain ⟨A, B, hold, hnew⟩ :=
      entriesAt_setA (m := st.sched) hK hu ⟨u.unitName, []⟩ d
    have hempty : slotContrib st.sched u.unitCode d = [] := by
      rcases hemp with h0 | ⟨nm, h0⟩ <;> simp [slotContrib, h0, dayContrib_nil]
    rw [hsched, hnew, dayContrib_nil]
    rw [hempty] at hold
    rw [hold]
  constructor
  · intro d l hl; exact hinv.timesOk d l hl
  · intro d l hl
    rw [hslots d]
    exact hinv.indexExact d l hl
  · intro k e hk c hc
    by_cases hkk : k = u.unitCode
    · subst hkk
      rw [hsched, lookupA_setA_self, Option.some_inj] at hk
      subst hk
      exact absurd hc (List.not_mem_nil c)
    · rw [hsched, lookupA_setA_ne st.sched u.unitCode k _ hkk] at hk
      exact hinv.parsedOk k e hk c hc
  · intro k hk
    rw [hsched, lookupA_setA_ne st.sched u.unitCode k _ (fun h => hk (h ▸ hu))]
    exact hinv.outside k hk
  · exact hsched ▸ nodup_keys_setA st.sched u.unitCode _ hinv.nodupKeys

theorem tryCourses_nil (more : List Activity) (rest : List SchedUnit)
    (cu : SchedUnit) (st : SchedState) :
    tryCourses [] more rest cu st = .ok (false, st) := by
  simp only [tryCourses]

theorem tryCourses_cons_parse_error {c : Course} {e : JsError}
    (cs' : List Course) (more : List Activity) (rest : List SchedUnit)
    (cu : SchedUnit) (st : SchedState)
    (hparse : parseCourseTimes c.time = .error e) :
    tryCourses (c :: cs') more rest cu st = .error e := by
  simp only [tryCourses, hparse]

theorem tryCourses_cons_noday {c : Course} {iv : Option Nat × Option Nat}
    (cs' : List Course) (more : List Activity) (rest : List SchedUnit)
    (cu : SchedUnit) (st : SchedState)
    (hparse : parseCourseTimes c.time = .ok iv)
    (hday : lookupA st.times c.day = none) :
    tryCourses (c :: cs') more rest cu st = .error .typeError := by
  simp only [tryCourses, hparse, hday]

theorem tryCourses_cons_conflict {c : Course} {iv : Option Nat × Option Nat}
    {scheduled : List ScheduledTime}
    (cs' : List Course) (more : List Activity) (rest : List SchedUnit)
    (cu : SchedUnit) (st : SchedState)
    (hparse : parseCourseTimes c.time = .ok iv)
    (hday : lookupA st.times c.day = some scheduled)
    (hconf : hasTimeConflict scheduled iv.1 iv.2 = true) :
    tryCourses (c :: cs') more rest cu st = tryCourses cs' more rest cu st := by
  simp only [tryCourses, hparse, hday, hconf, if_true]

theorem tryCourses_cons_commit {c : Course} {iv : Option Nat × Option Nat}
    {scheduled : List ScheduledTime} {st1 : SchedState}
    (cs' : List Course) (more : List Activity) (rest : List SchedUnit)
    (cu : SchedUnit) (st : SchedState)
    (hparse : parseCourseTimes c.time = .ok iv)
    (hday : lookupA st.times c.day = some scheduled)
    (hconf : hasTimeConflict scheduled iv.1 iv.2 = false)
    (hsc : scheduleCourse cu.unitCode c iv.1 iv.2 st = .ok st1) :
    tryCourses (c :: cs') more rest cu st =
      match scheduleActivities more rest cu st1 with
      | .error e => .error e
      | .ok (true, st2) => .ok (true, st2)
      | .ok (false, st2) =>
          match unscheduleCourse cu.unitCode c.day st2 with
          | .error e => .error e
          | .ok st3 => tryCourses cs' more rest cu st3 := by
  simp only [tryCourses, hparse, hday, hconf, Bool.false_eq_true, if_false, hsc]

theorem scheduleActivities_nil (rest : List SchedUnit) (cu : SchedUnit)
    (st : SchedState) :
    scheduleActivities [] rest cu st = scheduleUnits rest st := by
  simp only [scheduleActivities]

theorem scheduleActivities_cons (a : Activity) (more : List Activity)
    (rest : List SchedUnit) (cu : SchedUnit) (st : SchedState) :
    scheduleActivities (a :: more) rest cu st =
      tryCourses a.courses more rest cu st := by
  simp only [scheduleActivities]

theorem scheduleUnits_nil (st : SchedState) :
    scheduleUnits [] st = .ok (true, st) := by
  simp only [scheduleUnits]

theorem scheduleUnits_cons (u : SchedUnit) (rest : List SchedUnit)
    (st : SchedState) :
    scheduleUnits (u :: rest) st =
      scheduleActivities (sortActivitiesByCourseOptions u.activities) rest u
        (initUnitSchedule u st) := by
  simp only [scheduleUnits]

theorem failConc_refl {codes : List String} {st : SchedState}
    (h : (st.sched.map Prod.fst).Nodup) : failConc codes st st :=
  ⟨rfl, fun _ _ => rfl, fun _ _ => Or.inl rfl, h⟩

theorem failConc_trans {codes : List String} {st1 st2 st3 : SchedState}
    (h12 : failConc codes st1 st2) (h23 : failConc codes st2 st3) :
    failConc codes st1 st3 := by
  obtain ⟨ht12, hp12, hi12, _⟩ := h12
  obtain ⟨ht23, hp23, hi23, hn⟩ := h23
  refine ⟨ht23.trans ht12, fun k hk => (hp23 k hk).trans (hp12 k hk), ?_, hn⟩
  intro k hk
  rcases hi23 k hk with heq | hempty
  · rcases hi12 k hk with heq' | hempty'
    · exact Or.inl (heq.trans heq')
    · exact Or.inr (heq ▸ hempty')
  · exact Or.inr hempty

theorem tryCourses_cons_commit_error {c : Course} {iv : Option Nat × Option Nat}
    {scheduled : List ScheduledTime} {e : JsError}
    (cs' : List Course) (more : List Activity) (rest : List SchedUnit)
    (cu : SchedUnit) (st : SchedState)
    (hparse : parseCourseTimes c.time = .ok iv)
    (hday : lookupA st.times c.day = some scheduled)
    (hconf : hasTimeConflict scheduled iv.1 iv.2 = false)
    (hsc : scheduleCourse cu.unitCode c iv.1 iv.2 st = .error e) :
    tryCourses (c :: cs') more rest cu st = .error e := by
  simp only [tryCourses, hparse, hday, hconf, Bool.false_eq_true, if_false, hsc]

theorem sizeUnits_cons (u : SchedUnit) (rest : List SchedUnit) :
    sizeUnits (u :: rest) = u.activities.length + 2 + sizeUnits rest := by
  simp [sizeUnits]

/-- The main inductive lemma about the mutually recursive search. -/
theorem searchMain (n : Nat) :
    (∀ K, K.Nodup → ∀ (more : List Activity) (rest : List SchedUnit)
      (cu : SchedUnit), more.length + 2 + sizeUnits rest ≤ n →
      ∀ (cs : List Course) (st : SchedState), AHyps K rest cu st →
        TConc K cs more rest cu st) ∧
    (∀ K, K.Nodup → ∀ (acts : List Activity) (rest : List SchedUnit)
      (cu : SchedUnit), acts.length + 1 + sizeUnits rest ≤ n →
      ∀ st, AHyps K rest cu st → AConc K acts rest cu st) ∧
    (∀ K, K.Nodup → ∀ us : List SchedUnit, sizeUnits us ≤ n →
      ∀ st, UHyps K us st → UConc K us st) := by
  induction n using Nat.strong_induction_on with
  | _ n IH =>
  have hT : ∀ K, K.Nodup → ∀ (more : List Activity) (rest : List SchedUnit)
      (cu : SchedUnit), more.length + 2 + sizeUnits rest ≤ n →
      ∀ (cs : List Course) (st : SchedState), AHyps K rest cu st →
        TConc K cs more rest cu st := by
    intro K hK more rest cu hm cs
    induction cs with
    | nil =>
        intro st hA b st' hrun
        rw [tryCourses_nil] at hrun
        simp only [Except.ok.injEq, Prod.mk.injEq] at hrun
        obtain ⟨hb, hst⟩ := hrun
        subst hb; subst hst
        exact ⟨fun _ => failConc_refl hA.2.2.2.2.2.nodupKeys,
          fun hbt => Bool.noConfusion hbt⟩
    | cons c cs' ihc =>
        intro st hA b st' hrun
        obtain ⟨hsub, hcuK, hndr, hcunr, hemp, hinv⟩ := hA
        cases hparse : parseCourseTimes c.time with
        | error e =>
            rw [tryCourses_cons_parse_error cs' more rest cu st hparse] at hrun
            exact Except.noConfusion hrun
        | ok iv =>
        cases hday : lookupA st.times c.day with
        | none =>
            rw [tryCourses_cons_noday cs' more rest cu st hparse hday] at hrun
            exact Except.noConfusion hrun
        | some scheduled =>
        cases hconf : hasTimeConflict scheduled iv.1 iv.2 with
        | true =>
            rw [tryCourses_cons_conflict cs' more rest cu st hparse hday hconf]
              at hrun
            have hres := ihc st ⟨hsub, hcuK, hndr, hcunr, hemp, hinv⟩ b st' hrun
            refine ⟨hres.1, fun hbt => ?_⟩
            obtain ⟨hcs, hentry⟩ := hres.2 hbt
            refine ⟨hcs, fun en hen => ?_⟩
            obtain ⟨c0, sel, hc0, hlook, hsel⟩ := hentry en hen
            exact ⟨c0, sel, List.mem_cons_of_mem c hc0, hlook, hsel⟩
        | false =>
        cases hsc : scheduleCourse cu.unitCode c iv.1 iv.2 st with
        | error e =>
            rw [tryCourses_cons_commit_error cs' more rest cu st hparse hday
              hconf hsc] at hrun
            exact Except.noConfusion hrun
        | ok st1 =>
            rw [tryCourses_cons_commit cs' more rest cu st hparse hday hconf hsc]
              at hrun
            obtain ⟨en, l, hen, hday', hst1⟩ := scheduleCourse_ok hsc
            rw [hday, Option.some_inj] at hday'
            subst hday'
            have h1times : st1.times =
                setA st.times c.day
                  (scheduled ++ [⟨iv.1, iv.2, cu.unitCode, c.activity⟩]) := by
              rw [hst1]
            have h1sched : st1.sched =
                setA st.sched cu.unitCode ⟨en.unitName, en.courses ++ [c]⟩ := by
              rw [hst1]
            have hinv1 : SearchInv K st1 := by
              rw [hst1]
              exact scheduleCourse_inv hK hinv hcuK hparse hday hconf hen
            have hne_restcu : ∀ u' ∈ rest, u'.unitCode ≠ cu.unitCode := by
              intro u' hu' h
              exact hcunr (h ▸ List.mem_map_of_mem SchedUnit.unitCode hu')
            have hemp1 : ∀ u' ∈ rest, lookupA st1.sched u'.unitCode = none ∨
                ∃ nm, lookupA st1.sched u'.unitCode = some (UnitEntry.mk nm []) := by
              intro u' hu'
              rw [h1sched,
                lookupA_setA_ne st.sched cu.unitCode u'.unitCode _
                  (hne_restcu u' hu')]
              exact hemp u' hu'
            have hA1 : AHyps K rest cu st1 :=
              ⟨hsub, hcuK, hndr, hcunr, hemp1, hinv1⟩
            cases hrec : scheduleActivities more rest cu st1 with
            | error e =>
                simp only [hrec] at hrun
                exact Except.noConfusion hrun
            | ok p =>
            obtain ⟨b1, st2⟩ := p
            simp only [hrec] at hrun
            have hlt : more.length + 1 + sizeUnits rest < n := by omega
            have hAr := (IH _ hlt).2.1 K hK more rest cu le_rfl st1 hA1 b1 st2 hrec
            cases b1 with
            | true =>
                simp only [Except.ok.injEq, Prod.mk.injEq] at hrun
                obtain ⟨hb, hst⟩ := hrun
                subst hb; subst hst
                refine ⟨fun h => Bool.noConfusion h, fun _ => ?_⟩
                obtain ⟨⟨hinv2, hpres2, hfull2⟩, hentry2⟩ := hAr.2 rfl
                constructor
                · refine ⟨hinv2, ?_, hfull2⟩
                  intro k hkcu hkr
                  rw [hpres2 k hkcu hkr, h1sched,
                    lookupA_setA_ne st.sched cu.unitCode k _ hkcu]
                · intro en0 hen0
                  rw [hen, Option.some_inj] at hen0
                  subst hen0
                  have hlook1 : lookupA st1.sched cu.unitCode =
                      some ⟨en.unitName, en.courses ++ [c]⟩ := by
                    rw [h1sched]; exact lookupA_setA_self _ _ _
                  obtain ⟨sel, hlook2, hsel⟩ := hentry2 _ hlook1
                  refine ⟨c, sel, List.mem_cons_self c cs', ?_, hsel⟩
                  rw [hlook2, Option.some_inj, List.append_assoc]
                  rfl
            | false =>
                have hfail12 := hAr.1 rfl
                cases hun : unscheduleCourse cu.unitCode c.day st2 with
                | error e =>
                    simp only [hun] at hrun
                    exact Except.noConfusion hrun
                | ok st3 =>
                simp only [hun] at hrun
                obtain ⟨ht12, hp12, hi12, hn2⟩ := hfail12
                have hlook2cu : lookupA st2.sched cu.unitCode =
                    some ⟨en.unitName, en.courses ++ [c]⟩ := by
                  rw [hp12 cu.unitCode hcunr, h1sched]
                  exact lookupA_setA_self _ _ _
                have hlook2day : lookupA st2.times c.day =
                    some (scheduled ++
                      [⟨iv.1, iv.2, cu.unitCode, c.activity⟩]) := by
                  rw [ht12, h1times]; exact lookupA_setA_self _ _ _
                obtain ⟨en2, l2, hen2, hl2, hst3⟩ := unscheduleCourse_ok hun
                rw [hlook2cu, Option.some_inj] at hen2
                subst hen2
                rw [hlook2day, Option.some_inj] at hl2
                subst hl2
                have hst3' : st3 = ⟨setA st2.times c.day scheduled,
                    setA st2.sched cu.unitCode en⟩ := by
                  rw [hst3]
                  congr 1
                  · congr 1
                    simp
                  · congr 1
                    simp
                have h3times : st3.times = st.times := by
                  rw [hst3']
                  show setA st2.times c.day scheduled = st.times
                  rw [ht12, h1times, setA_setA]
                  exact setA_of_lookupA_eq st.times c.day scheduled hday
                have h3cu : lookupA st3.sched cu.unitCode = some en := by
                  rw [hst3']; exact lookupA_setA_self _ _ _
                have h3ne : ∀ k, k ≠ cu.unitCode →
                    lookupA st3.sched k = lookupA st2.sched k := by
                  intro k hk
                  rw [hst3']
                  exact lookupA_setA_ne st2.sched cu.unitCode k _ hk
                have h3nodup : (st3.sched.map Prod.fst).Nodup := by
                  rw [hst3']
                  show ((setA st2.sched cu.unitCode en).map Prod.fst).Nodup
                  rw [keys_setA_of_lookupA_some st2.sched cu.unitCode en _ hlook2cu]
                  exact hn2
                have hfail3 : failConc (SchedCodes rest) st st3 := by
                  refine ⟨h3times, ?_, ?_, h3nodup⟩
                  · intro k hkr
                    by_cases hkcu : k = cu.unitCode
                    · subst hkcu
                      rw [h3cu, hen]
                    · rw [h3ne k hkcu, hp12 k hkr, h1sched,
                        lookupA_setA_ne st.sched cu.unitCode k _ hkcu]
                  · intro k hkr
                    have hkcu : k ≠ cu.unitCode := fun h => hcunr (h ▸ hkr)
                    rw [h3ne k hkcu]
                    rcases hi12 k hkr with heq | hempty
                    · rw [heq, h1sched,
                        lookupA_setA_ne st.sched cu.unitCode k _ hkcu]
                      exact Or.inl rfl
                    · exact Or.inr hempty
                have hsubR : ∀ k ∈ SchedCodes rest, k ∈ K := by
                  intro k hk
                  obtain ⟨u', hu', rfl⟩ := List.mem_map.mp hk
                  exact hsub u' hu'
                have hempR : ∀ k ∈ SchedCodes rest,
                    lookupA st.sched k = none ∨
                    ∃ nm, lookupA st.sched k = some (UnitEntry.mk nm []) := by
                  intro k hk
                  obtain ⟨u', hu', rfl⟩ := List.mem_map.mp hk
                  exact hemp u' hu'
                have hinv3 : SearchInv K st3 :=
                  inv_of_failConc hsubR hinv hempR hfail3
                have hemp3 : ∀ u' ∈ rest, lookupA st3.sched u'.unitCode = none ∨
                    ∃ nm, lookupA st3.sched u'.unitCode =
                      some (UnitEntry.mk nm []) := by
                  intro u' hu'
                  rcases hfail3.2.2.1 u'.unitCode
                      (List.mem_map_of_mem SchedUnit.unitCode hu') with heq | hempty
                  · rw [heq]; exact hemp u' hu'
                  · exact Or.inr hempty
                have hA3 : AHyps K rest cu st3 :=
                  ⟨hsub, hcuK, hndr, hcunr, hemp3, hinv3⟩
                have hres := ihc st3 hA3 b st' hrun
                refine ⟨fun hb => failConc_trans hfail3 (hres.1 hb),
                  fun hb => ?_⟩
                obtain ⟨⟨hinv', hpres', hfull'⟩, hentry'⟩ := hres.2 hb
                constructor
                · refine ⟨hinv', ?_, hfull'⟩
                  intro k hkcu hkr
                  rw [hpres' k hkcu hkr]
                  exact hfail3.2.1 k hkr
                · intro en0 hen0
                  rw [hen, Option.some_inj] at hen0
                  subst hen0
                  obtain ⟨c0, sel, hc0, hlook, hsel⟩ := hentry' en h3cu
                  exact ⟨c0, sel, List.mem_cons_of_mem c hc0, hlook, hsel⟩
  have hAphase : ∀ K, K.Nodup → ∀ (acts : List Activity)
      (rest : List SchedUnit) (cu : SchedUnit),
      acts.length + 1 + sizeUnits rest ≤ n →
      ∀ st, AHyps K rest cu st → AConc K acts rest cu st := by
    intro K hK acts rest cu hm st hA b st' hrun
    obtain ⟨hsub, hcuK, hndr, hcunr, hemp, hinv⟩ := hA
    cases acts with
    | nil =>
        rw [scheduleActivities_nil] at hrun
        have hlt : sizeUnits rest < n := by omega
        have hUr := (IH _ hlt).2.2 K hK rest le_rfl st
          ⟨hsub, hndr, hemp, hinv⟩ b st' hrun
        refine ⟨hUr.1, fun hb => ?_⟩
        obtain ⟨hinv', hpres', hfull'⟩ := hUr.2 hb
        refine ⟨⟨hinv', fun k _ hkr => hpres' k hkr, hfull'⟩, ?_⟩
        intro en hen
        refine ⟨[], ?_, List.Forall₂.nil⟩
        rw [hpres' cu.unitCode hcunr, hen, Option.some_inj]
        rw [List.append_nil]
    | cons a more =>
        rw [scheduleActivities_cons] at hrun
        have hmt : more.length + 2 + sizeUnits rest ≤ n := by
          simp only [List.length_cons] at hm; omega
        have hres := hT K hK more rest cu hmt a.courses st
          ⟨hsub, hcuK, hndr, hcunr, hemp, hinv⟩ b st' hrun
        refine ⟨hres.1, fun hb => ?_⟩
        obtain ⟨hcs, hentry⟩ := hres.2 hb
        refine ⟨hcs, fun en hen => ?_⟩
        obtain ⟨c0, sel, hc0, hlook, hsel⟩ := hentry en hen
        exact ⟨c0 :: sel, hlook, List.Forall₂.cons hc0 hsel⟩
  have hU : ∀ K, K.Nodup → ∀ us : List SchedUnit, sizeUnits us ≤ n →
      ∀ st, UHyps K us st → UConc K us st := by
    intro K hK us hm st hUh b st' hrun
    obtain ⟨hsub, hnd, hemp, hinv⟩ := hUh
    cases us with
    | nil =>
        rw [scheduleUnits_nil] at hrun
        simp only [Except.ok.injEq, Prod.mk.injEq] at hrun
        obtain ⟨hb, hst⟩ := hrun
        subst hb; subst hst
        exact ⟨fun h => Bool.noConfusion h,
          fun _ => ⟨hinv, fun k _ => rfl, fun u hu => absurd hu (List.not_mem_nil u)⟩⟩
    | cons u rest =>
        rw [scheduleUnits_cons] at hrun
        have huK : u.unitCode ∈ K := hsub u (List.mem_cons_self u rest)
        have hndr : (SchedCodes rest).Nodup := by
          have := hnd
          simp only [SchedCodes, List.map_cons, List.nodup_cons] at this
          exact this.2
        have hcunr : u.unitCode ∉ SchedCodes rest := by
          have := hnd
          simp only [SchedCodes, List.map_cons, List.nodup_cons] at this
          exact this.1
        have hne_restu : ∀ u' ∈ rest, u'.unitCode ≠ u.unitCode := by
          intro u' hu' h
          exact hcunr (h ▸ List.mem_map_of_mem SchedUnit.unitCode hu')
        have hinv1 : SearchInv K (initUnitSchedule u st) :=
          initUnitSchedule_inv hK hinv huK (hemp u (List.mem_cons_self u rest))
        have h1sched : (initUnitSchedule u st).sched =
            setA st.sched u.unitCode ⟨u.unitName, []⟩ := rfl
        have h1times : (initUnitSchedule u st).times = st.times := rfl
        have hemp1 : ∀ u' ∈ rest,
            lookupA (initUnitSchedule u st).sched u'.unitCode = none ∨
            ∃ nm, lookupA (initUnitSchedule u st).sched u'.unitCode =
              some (UnitEntry.mk nm []) := by
          intro u' hu'
          rw [h1sched, lookupA_setA_ne st.sched u.unitCode u'.unitCode _
            (hne_restu u' hu')]
          exact hemp u' (List.mem_cons_of_mem u hu')
        have hA1 : AHyps K rest u (initUnitSchedule u st) :=
          ⟨fun u' hu' => hsub u' (List.mem_cons_of_mem u hu'), huK,
            hndr, hcunr, hemp1, hinv1⟩
        have hma : (sortActivitiesByCourseOptions u.activities).length + 1 +
            sizeUnits rest < n := by
          rw [sortActivitiesByCourseOptions, stableSort_length]
          rw [sizeUnits_cons] at hm
          omega
        have hres := (IH _ hma).2.1 K hK (sortActivitiesByCourseOptions u.activities)
          rest u le_rfl (initUnitSchedule u st) hA1 b st' hrun
        have hlook1u : lookupA (initUnitSchedule u st).sched u.unitCode =
            some ⟨u.unitName, []⟩ := by
          rw [h1sched]; exact lookupA_setA_self _ _ _
        constructor
        · intro hb
          obtain ⟨ht', hp', hi', hn'⟩ := hres.1 hb
          refine ⟨ht'.trans h1times, ?_, ?_, hn'⟩
          · intro k hk
            have hkcu : k ≠ u.unitCode := by
              intro h
              exact hk (h ▸ List.mem_cons_self u.unitCode (SchedCodes rest))
            have hkr : k ∉ SchedCodes rest := by
              intro h
              exact hk (List.mem_cons_of_mem u.unitCode h)
            rw [hp' k hkr, h1sched,
              lookupA_setA_ne st.sched u.unitCode k _ hkcu]
          · intro k hk
            rcases List.mem_cons.mp hk with rfl | hkr
            · rw [hp' u.unitCode hcunr, hlook1u]
              exact Or.inr ⟨u.unitName, rfl⟩
            · have hkcu : k ≠ u.unitCode := by
                intro h
                exact hcunr (h ▸ hkr)
              rcases hi' k hkr with heq | hempty
              · rw [heq, h1sched,
                  lookupA_setA_ne st.sched u.unitCode k _ hkcu]
                exact Or.inl rfl
              · exact Or.inr hempty
        · intro hb
          obtain ⟨⟨hinv', hpres', hfull'⟩, hentry'⟩ := hres.2 hb
          refine ⟨hinv', ?_, ?_⟩
          · intro k hk
            have hkcu : k ≠ u.unitCode := by
              intro h
              exact hk (h ▸ List.mem_cons_self u.unitCode (SchedCodes rest))
            have hkr : k ∉ SchedCodes rest := by
              intro h
              exact hk (List.mem_cons_of_mem u.unitCode h)
            rw [hpres' k hkcu hkr, h1sched,
              lookupA_setA_ne st.sched u.unitCode k _ hkcu]
          · intro u' hu'
            rcases List.mem_cons.mp hu' with rfl | hu'r
            · obtain ⟨sel, hlook, hsel⟩ := hentry' _ hlook1u
              exact ⟨sel, by simpa using hlook, hsel⟩
            · exact hfull' u' hu'r
  exact ⟨hT, hAphase, hU⟩

/-! ## Top-level instantiation -/
theorem lookupA_nil {α : Type} (k : String) : lookupA ([] : List (String × α)) k = none := rfl

theorem entriesAt_nil (K : List String) (d : String) :
    entriesAt [] K d = [] := by
  induction K with
  | nil => rfl
  | cons k ks ih => simp [entriesAt, slotContrib, lookupA_nil, ih]

theorem lookupA_initialTimes {d : String} {l : List ScheduledTime}
    (hl : lookupA initialTimes d = some l) : l = [] := by
  simp only [initialTimes, lookupA] at hl
  split at hl
  · exact (Option.some_inj.mp hl).symm
  · split at hl
    · exact (Option.some_inj.mp hl).symm
    · split at hl
      · exact (Option.some_inj.mp hl).symm
      · split at hl
        · exact (Option.some_inj.mp hl).symm
        · split at hl
          · exact (Option.some_inj.mp hl).symm
          · exact Option.noConfusion hl

/-- The empty initial state satisfies the search invariant for any key
universe. -/
theorem initial_inv (K : List String) : SearchInv K ⟨initialTimes, []⟩ := by
  constructor
  · intro d l hl
    rw [lookupA_initialTimes hl]
    exact List.Pairwise.nil
  · intro d l hl
    rw [lookupA_initialTimes hl, entriesAt_nil]
  · intro k e hk
    exact Option.noConfusion hk
  · intro k _
    rfl
  · exact List.nodup_nil

theorem schedCodes_unitsOf (cl : CourseList) :
    SchedCodes (unitsOf cl) = cl.map Prod.fst := by
  simp [SchedCodes, unitsOf, List.map_map]

theorem schedCodes_preprocessed_perm (cl : CourseList) :
    (SchedCodes (preprocessedUnits cl)).Perm (cl.map Prod.fst) := by
  rw [← schedCodes_unitsOf]
  exact (stableSort_perm unitLE (unitsOf cl)).map SchedUnit.unitCode

theorem schedCodes_preprocessed_nodup {cl : CourseList}
    (hnd : (cl.map Prod.fst).Nodup) :
    (SchedCodes (preprocessedUnits cl)).Nodup :=
  ((schedCodes_preprocessed_perm cl).nodup_iff).mpr hnd

/-- Dismantle a successful top-level run: the returned schedule is the
final state of a successful search from the empty initial state, and the
search invariant and full-assignment facts hold of it. -/
theorem filterCourseList_main {cl : CourseList} {sp ep : String}
    {ds : List String} {cpd : Nat} {bb : Bool} {fs : FilteredCourseList}
    (hnd : (cl.map Prod.fst).Nodup)
    (h : filterCourseList cl sp ep ds cpd bb = .ok (some fs)) :
    ∃ st' : SchedState, fs = st'.sched ∧
      SearchInv (SchedCodes (preprocessedUnits cl)) st' ∧
      (∀ u ∈ preprocessedUnits cl, fullAssign u st') ∧
      presOutside (SchedCodes (preprocessedUnits cl)) ⟨initialTimes, []⟩ st' := by
  rw [filterCourseList] at h
  cases hview : scheduleUnits (preprocessedUnits cl) ⟨initialTimes, []⟩ with
  | error e =>
      rw [hview] at h
      exact Except.noConfusion h
  | ok p =>
      obtain ⟨b, st'⟩ := p
      rw [hview] at h
      cases b with
      | false =>
          simp only at h
          exact Option.noConfusion (Except.ok.inj h)
      | true =>
          simp only at h
          have hfs : fs = st'.sched :=
            (Option.some_inj.mp (Except.ok.inj h)).symm
          set K := SchedCodes (preprocessedUnits cl) with hKdef
          have hK : K.Nodup := schedCodes_preprocessed_nodup hnd
          have hUh : UHyps K (preprocessedUnits cl) ⟨initialTimes, []⟩ :=
            ⟨fun u hu => List.mem_map_of_mem SchedUnit.unitCode hu, hK,
              fun u _ => Or.inl rfl, initial_inv K⟩
          have hres := ((searchMain (sizeUnits (preprocessedUnits cl))).2.2 K hK
            (preprocessedUnits cl) le_rfl ⟨initialTimes, []⟩ hUh true st' hview).2 rfl
          exact ⟨st', hfs, hres.1, hres.2.2, hres.2.1⟩

/-! ## Extraction of pairwise non-conflict from the invariant -/
theorem sublist_pair_of_mem {α : Type} {a b : α} {l : List α} (hab : a ≠ b)
    (ha : a ∈ l) (hb : b ∈ l) : [a, b].Sublist l ∨ [b, a].Sublist l := by
  induction l with
  | nil => cases ha
  | cons y ys ih =>
      rcases List.mem_cons.mp ha with rfl | ha'
      · have hb' : b ∈ ys := by
          rcases List.mem_cons.mp hb with rfl | h
          · exact absurd rfl hab
          · exact h
        exact Or.inl (List.Sublist.cons₂ a (List.singleton_sublist.mpr hb'))
      · rcases List.mem_cons.mp hb with rfl | hb'
        · exact Or.inr (List.Sublist.cons₂ b (List.singleton_sublist.mpr ha'))
        · rcases ih ha' hb' with hs | hs
          · exact Or.inl (hs.cons y)
          · exact Or.inr (hs.cons y)

theorem pairwise_compat_of_mem {l : List ScheduledTime}
    (hp : l.Pairwise compat) {t1 t2 : ScheduledTime} (h12 : t1 ≠ t2)
    (h1 : t1 ∈ l) (h2 : t2 ∈ l) : compat t1 t2 := by
  rcases sublist_pair_of_mem h12 h1 h2 with hs | hs
  · exact List.pairwise_iff_forall_sublist.mp hp hs
  · exact compat_symm (List.pairwise_iff_forall_sublist.mp hp hs)

theorem pairwise_compat_of_two_le_count {l : List ScheduledTime}
    (hp : l.Pairwise compat) {t : ScheduledTime}
    (hc : 2 ≤ l.count t) : compat t t := by
  have hd : List.Duplicate t l := List.duplicate_iff_two_le_count.mpr hc
  exact List.pairwise_iff_forall_sublist.mp hp
    (List.duplicate_iff_sublist.mp hd)

theorem two_le_count_filterMap {α β : Type} [DecidableEq β]
    {f : α → Option β} {l : List α} {a b : α} {x : β} (hab : a ≠ b)
    (ha : a ∈ l) (hb : b ∈ l) (hfa : f a = some x) (hfb : f b = some x) :
    2 ≤ (l.filterMap f).count x := by
  induction l with
  | nil => cases ha
  | cons y ys ih =>
      rcases List.mem_cons.mp ha with rfl | ha'
      · have hb' : b ∈ ys := by
          rcases List.mem_cons.mp hb with rfl | h
          · exact absurd rfl hab
          · exact h
        rw [List.filterMap_cons, hfa]
        have hxmem : x ∈ ys.filterMap f :=
          List.mem_filterMap.mpr ⟨b, hb', hfb⟩
        have := List.count_pos_iff.mpr hxmem
        rw [List.count_cons_self]
        omega
      · rcases List.mem_cons.mp hb with rfl | hb'
        · rw [List.filterMap_cons, hfb]
          have hxmem : x ∈ ys.filterMap f :=
            List.mem_filterMap.mpr ⟨a, ha', hfa⟩
          have := List.count_pos_iff.mpr hxmem
          rw [List.count_cons_self]
          omega
        · rw [List.filterMap_cons]
          cases hfy : f y with
          | none => exact ih ha' hb'
          | some z =>
              have := ih ha' hb'
              by_cases hzx : z = x
              · subst hzx; rw [List.count_cons_self]; omega
              · rw [List.count_cons_of_ne (fun h => hzx h.symm)]
                exact this

theorem count_entriesAt_ge_slot {m : FilteredCourseList} {K : List String}
    {k : String} (hk : k ∈ K) (d : String) (x : ScheduledTime) :
    (slotContrib m k d).count x ≤ (entriesAt m K d).count x := by
  obtain ⟨A, B, hdec⟩ := entriesAt_slot_decomp (m := m) hk d
  rw [hdec]
  simp only [List.count_append]
  omega

theorem mem_entriesAt_of_slot {sched : FilteredCourseList} {K : List String}
    {k : String} (hk : k ∈ K) {d : String} {x : ScheduledTime}
    (hx : x ∈ slotContrib sched k d) : x ∈ entriesAt sched K d := by
  have := count_entriesAt_ge_slot (m := sched) hk d x
  have h1 := List.count_pos_iff.mpr hx
  exact List.count_pos_iff.mp (by omega)

/-- The interval recorded for a committed course, as produced by
`dayContrib`'s inner function. -/
theorem dayContrib_some {k d : String} {c : Course}
    {iv : Option Nat × Option Nat} (hd : c.day = d)
    (hparse : parseCourseTimes c.time = .ok iv) :
    (fun c : Course =>
      if c.day = d then
        match parseCourseTimes c.time with
        | .ok iv => some (⟨iv.1, iv.2, k, c.activity⟩ : ScheduledTime)
        | .error _ => none
      else none) c = some ⟨iv.1, iv.2, k, c.activity⟩ := by
  simp [hd, hparse]

/-- C1, core form: in any returned schedule, two distinct committed
sessions on the same day have non-conflicting parsed intervals. -/
theorem soundness_core {cl : CourseList} {sp ep : String} {ds : List String}
    {cpd : Nat} {bb : Bool} {fs : FilteredCourseList}
    (hnd : (cl.map Prod.fst).Nodup)
    (hrun : filterCourseList cl sp ep ds cpd bb = .ok (some fs))
    {k1 k2 : String} {e1 e2 : UnitEntry} {c1 c2 : Course}
    (hk1 : lookupA fs k1 = some e1) (hk2 : lookupA fs k2 = some e2)
    (hc1 : c1 ∈ e1.courses) (hc2 : c2 ∈ e2.courses)
    (hdistinct : k1 ≠ k2 ∨ c1 ≠ c2) (hdayeq : c1.day = c2.day)
    {s1 t1 s2 t2 : Option Nat}
    (hp1 : parseCourseTimes c1.time = .ok (s1, t1))
    (hp2 : parseCourseTimes c2.time = .ok (s2, t2)) :
    ¬(instLt s1 t2 = true ∧ instLt s2 t1 = true) := by
  obtain ⟨st', hfs, hinv, hfull, hpres⟩ := filterCourseList_main hnd hrun
  subst hfs
  set K := SchedCodes (preprocessedUnits cl) with hKdef
  -- the recorded intervals
  set d := c1.day with hd
  set x1 : ScheduledTime := ⟨s1, t1, k1, c1.activity⟩ with hx1
  set x2 : ScheduledTime := ⟨s2, t2, k2, c2.activity⟩ with hx2
  have hk1K : k1 ∈ K := by
    by_contra hcon
    rw [hinv.outside k1 hcon] at hk1
    exact Option.noConfusion hk1
  have hk2K : k2 ∈ K := by
    by_contra hcon
    rw [hinv.outside k2 hcon] at hk2
    exact Option.noConfusion hk2
  have hx1slot : x1 ∈ slotContrib st'.sched k1 d := by
    simp only [slotContrib, hk1]
    exact dayContrib_mem hc1 rfl hp1
  have hx2slot : x2 ∈ slotContrib st'.sched k2 d := by
    simp only [slotContrib, hk2]
    exact dayContrib_mem hc2 hdayeq.symm hp2
  obtain ⟨hiv1, dl, hdl⟩ := hinv.parsedOk k1 e1 hk1 c1 hc1
  have hpw : dl.Pairwise compat := hinv.timesOk d dl hdl
  have hperm : dl.Perm (entriesAt st'.sched K d) := hinv.indexExact d dl hdl
  have hx1dl : x1 ∈ dl := hperm.mem_iff.mpr (mem_entriesAt_of_slot hk1K hx1slot)
  have hx2dl : x2 ∈ dl := hperm.mem_iff.mpr (mem_entriesAt_of_slot hk2K hx2slot)
  have hcompat : compat x1 x2 := by
    by_cases hx12 : x1 = x2
    · -- equal records force equal keys, hence the courses differ
      have hkk : k1 = k2 := congrArg ScheduledTime.unitCode hx12
      subst hkk
      have hee : e1 = e2 := Option.some_inj.mp (hk1.symm.trans hk2)
      subst hee
      have hcc : c1 ≠ c2 := by
        rcases hdistinct with h | h
        · exact absurd rfl h
        · exact h
      have hcnt2 : 2 ≤ (dayContrib k1 e1 d).count x1 := by
        rw [dayContrib]
        refine two_le_count_filterMap hcc hc1 hc2 ?_ ?_
        · exact dayContrib_some rfl hp1
        · rw [hx12]
          exact dayContrib_some hdayeq.symm hp2
      have hcnt : 2 ≤ dl.count x1 := by
        have hs : (slotContrib st'.sched k1 d).count x1 =
            (dayContrib k1 e1 d).count x1 := by
          simp only [slotContrib, hk1]
        have hge := count_entriesAt_ge_slot (m := st'.sched) hk1K d x1
        rw [hperm.count_eq x1]
        omega
      rw [hx12]
      exact pairwise_compat_of_two_le_count hpw (hx12 ▸ hcnt)
    · exact pairwise_compat_of_mem hpw hx12 hx1dl hx2dl
  exact fun ⟨ha, hb⟩ => hcompat ⟨ha, hb⟩

/-- C1: soundness of returned schedules — whenever `filterCourseList`
returns a schedule, any two distinct sessions committed in it that share
a day tag have non-conflicting parsed intervals: not
(`s1 < e2` and `e1 > s2`). -/
theorem claim_C1 (courseList : CourseList) (sp ep : String) (ds : List String)
    (cpd : Nat) (bb : Bool) (fs : FilteredCourseList)
    (hnd : (courseList.map Prod.fst).Nodup)
    (hrun : filterCourseList courseList sp ep ds cpd bb = .ok (some fs))
    (k1 k2 : String) (e1 e2 : UnitEntry) (c1 c2 : Course)
    (hk1 : lookupA fs k1 = some e1) (hk2 : lookupA fs k2 = some e2)
    (hc1 : c1 ∈ e1.courses) (hc2 : c2 ∈ e2.courses)
    (hdistinct : k1 ≠ k2 ∨ c1 ≠ c2) (hdayeq : c1.day = c2.day)
    (s1 t1 s2 t2 : Option Nat)
    (hp1 : parseCourseTimes c1.time = .ok (s1, t1))
    (hp2 : parseCourseTimes c2.time = .ok (s2, t2)) :
    ¬(instLt s1 t2 = true ∧ instLt s2 t1 = true) :=
  soundness_core hnd hrun hk1 hk2 hc1 hc2 hdistinct hdayeq hp1 hp2

/-! ## Grouping facts for completeness of assignment -/
theorem pushGroup_prop {P : String → Course → Prop}
    (acc : List (String × List Course)) (k : String) (c : Course)
    (hacc : ∀ p ∈ acc, ∀ x ∈ p.2, P p.1 x) (hc : P k c) :
    ∀ p ∈ pushGroup acc k c, ∀ x ∈ p.2, P p.1 x := by
  induction acc with
  | nil =>
      intro p hp x hx
      simp only [pushGroup, List.mem_singleton] at hp
      subst hp
      simp only [List.mem_singleton] at hx
      subst hx
      exact hc
  | cons q rest ih =>
      obtain ⟨k', l⟩ := q
      intro p hp x hx
      by_cases hk' : k' = k
      · subst hk'
        simp only [pushGroup, if_pos rfl] at hp
        rcases List.mem_cons.mp hp with rfl | hp'
        · rcases List.mem_append.mp hx with hx' | hx'
          · exact hacc (k', l) (List.mem_cons_self _ _) x hx'
          · rw [List.mem_singleton.mp hx']
            exact hc
        · exact hacc p (List.mem_cons_of_mem _ hp') x hx
      · simp only [pushGroup, if_neg hk'] at hp
        rcases List.mem_cons.mp hp with rfl | hp'
        · exact hacc (k', l) (List.mem_cons_self _ _) x hx
        · exact ih (fun q hq => hacc q (List.mem_cons_of_mem _ hq)) p hp' x hx

theorem groupCourses_prop (courses : List Course) :
    ∀ p ∈ groupCourses courses, ∀ x ∈ p.2, x.activity = p.1 := by
  have main : ∀ (cs : List Course) (acc : List (String × List Course)),
      (∀ p ∈ acc, ∀ x ∈ p.2, x.activity = p.1) →
      ∀ p ∈ cs.foldl (fun g c => pushGroup g c.activity c) acc,
        ∀ x ∈ p.2, x.activity = p.1 := by
    intro cs
    induction cs with
    | nil => intro acc hacc; exact hacc
    | cons c cs' ih =>
        intro acc hacc
        rw [List.foldl_cons]
        exact ih _ (pushGroup_prop (P := fun s x => x.activity = s) acc
          c.activity c hacc rfl)
  intro p hp
  exact main courses [] (fun q hq => absurd hq (List.not_mem_nil q)) p hp

theorem forall₂_chooseFrom_strengthen {acts : List Activity} :
    ∀ {sel : List Course}, List.Forall₂ chooseFrom acts sel →
    (∀ a ∈ acts, ∀ c ∈ a.courses, c.activity = a.activityType) →
    List.Forall₂ (fun a c => c ∈ a.courses ∧ c.activity = a.activityType)
      acts sel := by
  induction acts with
  | nil =>
      intro sel h _
      cases h
      exact List.Forall₂.nil
  | cons a as ih =>
      intro sel h hP
      cases h with
      | cons h1 h2 =>
          exact List.Forall₂.cons
            ⟨h1, hP a (List.mem_cons_self a as) _ h1⟩
            (ih h2 (fun a' ha' => hP a' (List.mem_cons_of_mem a ha')))

/-- C2: completeness of assignment — whenever `filterCourseList` returns
a schedule, every input unit code has an entry whose session list
contains exactly one session drawn from each of the unit's activity
groups (one per distinct activity-type tag), so its length equals the
unit's number of activities. -/
theorem claim_C2 (courseList : CourseList) (sp ep : String) (ds : List String)
    (cpd : Nat) (bb : Bool) (fs : FilteredCourseList)
    (hnd : (courseList.map Prod.fst).Nodup)
    (hrun : filterCourseList courseList sp ep ds cpd bb = .ok (some fs)) :
    ∀ k data, (k, data) ∈ courseList →
      ∃ acts' sel,
        acts'.Perm ((groupCourses data.courses).map
          (fun g => Activity.mk g.1 g.2)) ∧
        List.Forall₂ (fun a c => c ∈ a.courses ∧ c.activity = a.activityType)
          acts' sel ∧
        lookupA fs k = some ⟨data.unitName, sel⟩ ∧
        sel.length = (groupCourses data.courses).length := by
  intro k data hmem
  obtain ⟨st', hfs, hinv, hfull, hpres⟩ := filterCourseList_main hnd hrun
  subst hfs
  set u : SchedUnit := ⟨k, data.unitName,
    (groupCourses data.courses).map (fun g => Activity.mk g.1 g.2)⟩ with hu
  have humem : u ∈ unitsOf courseList := by
    rw [unitsOf]
    exact List.mem_map_of_mem _ hmem
  have humem' : u ∈ preprocessedUnits courseList :=
    ((stableSort_perm unitLE (unitsOf courseList)).mem_iff).mpr humem
  obtain ⟨sel, hlook, hsel⟩ := hfull u humem'
  refine ⟨sortActivitiesByCourseOptions u.activities, sel,
    stableSort_perm actLE u.activities, ?_, hlook, ?_⟩
  · refine forall₂_chooseFrom_strengthen hsel ?_
    intro a ha c hc
    have ha' : a ∈ u.activities :=
      ((stableSort_perm actLE u.activities).mem_iff).mp ha
    rw [hu] at ha'
    obtain ⟨g, hg, rfl⟩ := List.mem_map.mp ha'
    exact groupCourses_prop data.courses g hg c hc
  · have h1 := List.Forall₂.length_eq hsel
    rw [sortActivitiesByCourseOptions, stableSort_length] at h1
    rw [← h1, hu]
    simp

/-! ## Backtracking restoration (C5) -/
/-- C5 (amended): after committing a candidate whose recursive call
fails, the uncommit step restores the occupied-time index exactly and
restores every schedule lookup outside the remaining units' codes
(including the current unit's entry); lookups at the remaining units'
codes are either restored or left as freshly initialized empty entries
created by the failed call. -/
theorem claim_C5 (K : List String) (hK : K.Nodup) (rest : List SchedUnit)
    (cu : SchedUnit) (st st1 st2 st3 : SchedState) (c : Course)
    (iv : Option Nat × Option Nat) (more : List Activity)
    (scheduled : List ScheduledTime)
    (hA : AHyps K rest cu st)
    (hparse : parseCourseTimes c.time = .ok iv)
    (hday : lookupA st.times c.day = some scheduled)
    (hnc : hasTimeConflict scheduled iv.1 iv.2 = false)
    (hsc : scheduleCourse cu.unitCode c iv.1 iv.2 st = .ok st1)
    (hrec : scheduleActivities more rest cu st1 = .ok (false, st2))
    (hun : unscheduleCourse cu.unitCode c.day st2 = .ok st3) :
    st3.times = st.times ∧
    (∀ k, k ∉ SchedCodes rest → lookupA st3.sched k = lookupA st.sched k) ∧
    (∀ k ∈ SchedCodes rest, lookupA st3.sched k = lookupA st.sched k ∨
      ∃ nm, lookupA st3.sched k = some (UnitEntry.mk nm [])) := by
  obtain ⟨hsub, hcuK, hndr, hcunr, hemp, hinv⟩ := hA
  obtain ⟨en, l, hen, hday', hst1⟩ := scheduleCourse_ok hsc
  rw [hday, Option.some_inj] at hday'
  subst hday'
  have h1times : st1.times =
      setA st.times c.day
        (scheduled ++ [⟨iv.1, iv.2, cu.unitCode, c.activity⟩]) := by
    rw [hst1]
  have h1sched : st1.sched =
      setA st.sched cu.unitCode ⟨en.unitName, en.courses ++ [c]⟩ := by
    rw [hst1]
  have hinv1 : SearchInv K st1 := by
    rw [hst1]
    exact scheduleCourse_inv hK hinv hcuK hparse hday hnc hen
  have hne_restcu : ∀ u' ∈ rest, u'.unitCode ≠ cu.unitCode := by
    intro u' hu' h
    exact hcunr (h ▸ List.mem_map_of_mem SchedUnit.unitCode hu')
  have hemp1 : ∀ u' ∈ rest, lookupA st1.sched u'.unitCode = none ∨
      ∃ nm, lookupA st1.sched u'.unitCode = some (UnitEntry.mk nm []) := by
    intro u' hu'
    rw [h1sched, lookupA_setA_ne st.sched cu.unitCode u'.unitCode _
      (hne_restcu u' hu')]
    exact hemp u' hu'
  have hA1 : AHyps K rest cu st1 := ⟨hsub, hcuK, hndr, hcunr, hemp1, hinv1⟩
  have hAr := (searchMain (more.length + 1 + sizeUnits rest)).2.1 K hK more
    rest cu le_rfl st1 hA1 false st2 hrec
  obtain ⟨ht12, hp12, hi12, hn2⟩ := hAr.1 rfl
  have hlook2cu : lookupA st2.sched cu.unitCode =
      some ⟨en.unitName, en.courses ++ [c]⟩ := by
    rw [hp12 cu.unitCode hcunr, h1sched]
    exact lookupA_setA_self _ _ _
  have hlook2day : lookupA st2.times c.day =
      some (scheduled ++ [⟨iv.1, iv.2, cu.unitCode, c.activity⟩]) := by
    rw [ht12, h1times]
    exact lookupA_setA_self _ _ _
  obtain ⟨en2, l2, hen2, hl2, hst3⟩ := unscheduleCourse_ok hun
  rw [hlook2cu, Option.some_inj] at hen2
  subst hen2
  rw [hlook2day, Option.some_inj] at hl2
  subst hl2
  have hst3' : st3 = ⟨setA st2.times c.day scheduled,
      setA st2.sched cu.unitCode en⟩ := by
    rw [hst3]
    congr 1
    · congr 1
      simp
    · congr 1
      simp
  have h3times : st3.times = st.times := by
    rw [hst3']
    show setA st2.times c.day scheduled = st.times
    rw [ht12, h1times, setA_setA]
    exact setA_of_lookupA_eq st.times c.day scheduled hday
  have h3cu : lookupA st3.sched cu.unitCode = some en := by
    rw [hst3']
    exact lookupA_setA_self _ _ _
  have h3ne : ∀ k, k ≠ cu.unitCode →
      lookupA st3.sched k = lookupA st2.sched k := by
    intro k hk
    rw [hst3']
    exact lookupA_setA_ne st2.sched cu.unitCode k _ hk
  refine ⟨h3times, ?_, ?_⟩
  · intro k hkr
    by_cases hkcu : k = cu.unitCode
    · subst hkcu
      rw [h3cu, hen]
    · rw [h3ne k hkcu, hp12 k hkr, h1sched,
        lookupA_setA_ne st.sched cu.unitCode k _ hkcu]
  · intro k hkr
    have hkcu : k ≠ cu.unitCode := fun h => hcunr (h ▸ hkr)
    rw [h3ne k hkcu]
    rcases hi12 k hkr with heq | hempty
    · rw [heq, h1sched, lookupA_setA_ne st.sched cu.unitCode k _ hkcu]
      exact Or.inl rfl
    · exact Or.inr hempty

/-- C5 (counterexample): a concrete committed candidate whose recursive
call fails; the uncommit step pops the just-pushed session and interval,
but the resulting state differs from the state before the candidate was
tried, because the failed recursive call initialized an entry for a
later unit that persists. -/
theorem claim_C5_cex :
    parseCourseTimes exCourseA.time = .ok (some 32400, some 36000) ∧
    lookupA exSt0.times exCourseA.day = some [] ∧
    hasTimeConflict [] (some 32400) (some 36000) = false ∧
    scheduleCourse exUnitA.unitCode exCourseA (some 32400) (some 36000) exSt0 =
      .ok exSt1 ∧
    scheduleActivities [] [exUnitB] exUnitA exSt1 = .ok (false, exSt2) ∧
    unscheduleCourse exUnitA.unitCode exCourseA.day exSt2 = .ok exSt3 ∧
    exSt3 ≠ exSt0 := by
  refine ⟨by rfl, by rfl, by rfl, by rfl, ?_, by rfl, by decide⟩
  simp [scheduleActivities, scheduleUnits, tryCourses, initUnitSchedule,
    sortActivitiesByCourseOptions, stableSort, stableInsert, exUnitB, exUnitA,
    exSt1, exSt2, exCourseA, exCourseB, parseCourseTimes, splitSep, splitSepAux,
    convertTo24Hour, matchTime12, trimChars, digitsVal, digitVal, natDigits,
    pad2, dateOf, instLt, hasTimeConflict, lookupA, setA, scheduleCourse,
    unscheduleCourse]
  exact ⟨rfl, rfl⟩

/-- C6: the commit/index bijection invariant — committing a
non-conflicting course pushes exactly one session and one matching
interval and preserves the invariant that every day list of the
occupied-time index is, up to order, exactly the parsed intervals of the
committed sessions (`SearchInv.indexExact`); and every state produced by
the unit phase (through all of its commits and uncommits) satisfies the
same invariant. -/
theorem claim_C6 :
    (∀ (K : List String), K.Nodup → ∀ (st : SchedState), SearchInv K st →
      ∀ (k : String), k ∈ K → ∀ (c : Course) (iv : Option Nat × Option Nat),
        parseCourseTimes c.time = .ok iv →
        ∀ (scheduled : List ScheduledTime),
          lookupA st.times c.day = some scheduled →
          hasTimeConflict scheduled iv.1 iv.2 = false →
          ∀ (en : UnitEntry), lookupA st.sched k = some en →
          ∀ st1, scheduleCourse k c iv.1 iv.2 st = .ok st1 →
            st1.times = setA st.times c.day
              (scheduled ++ [⟨iv.1, iv.2, k, c.activity⟩]) ∧
            st1.sched = setA st.sched k ⟨en.unitName, en.courses ++ [c]⟩ ∧
            SearchInv K st1) ∧
    (∀ (K : List String), K.Nodup → ∀ (us : List SchedUnit) (st : SchedState),
      UHyps K us st → ∀ b st', scheduleUnits us st = .ok (b, st') →
        SearchInv K st') := by
  constructor
  · intro K hK st hinv k hk c iv hparse scheduled hday hnc en hen st1 hsc
    obtain ⟨en', l', hen', hday', hst1⟩ := scheduleCourse_ok hsc
    rw [hen, Option.some_inj] at hen'
    subst hen'
    rw [hday, Option.some_inj] at hday'
    subst hday'
    refine ⟨by rw [hst1], by rw [hst1], ?_⟩
    rw [hst1]
    exact scheduleCourse_inv hK hinv hk hparse hday hnc hen
  · intro K hK us st hUh b st' hrun
    have hres := (searchMain (sizeUnits us)).2.2 K hK us le_rfl st hUh b st' hrun
    cases b with
    | true => exact (hres.2 rfl).1
    | false =>
        obtain ⟨hsub, hnd, hemp, hinv⟩ := hUh
        refine inv_of_failConc ?_ hinv ?_ (hres.1 rfl)
        · intro k hk
          obtain ⟨u', hu', rfl⟩ := List.mem_map.mp hk
          exact hsub u' hu'
        · intro k hk
          obtain ⟨u', hu', rfl⟩ := List.mem_map.mp hk
          exact hemp u' hu'

/-! ## Malformed time aborts only when the candidate is reached (C4) -/
/-- C4 (amended): when the first candidate examined by the search — the
first course option of the first sorted activity of the first
preprocessed unit — has a time text that fails to parse, the error
propagates out of the top-level call, and this outcome is distinct from
the infeasibility result and from any returned schedule. -/
theorem claim_C4 (courseList : CourseList) (sp ep : String) (ds : List String)
    (cpd : Nat) (bb : Bool) (u : SchedUnit) (rest : List SchedUnit)
    (a : Activity) (more : List Activity) (c : Course) (cs : List Course)
    (e : JsError)
    (hu : preprocessedUnits courseList = u :: rest)
    (ha : sortActivitiesByCourseOptions u.activities = a :: more)
    (hc : a.courses = c :: cs)
    (hparse : parseCourseTimes c.time = .error e) :
    filterCourseList courseList sp ep ds cpd bb = .error e ∧
    ∀ x, filterCourseList courseList sp ep ds cpd bb ≠ .ok x := by
  have hrun : filterCourseList courseList sp ep ds cpd bb = .error e := by
    rw [filterCourseList, hu, scheduleUnits_cons, ha, scheduleActivities_cons,
      hc, tryCourses_cons_parse_error cs more rest u _ hparse]
  exact ⟨hrun, fun x h => Except.noConfusion (hrun.symm.trans h)⟩

/-- C4 (counterexample): an input containing a session whose time text
does not match the pattern, on which scheduling nevertheless succeeds
with a schedule — the malformed session is never examined because an
earlier candidate of the same activity succeeds, so no
`InvalidTimeFormat` error propagates. -/
theorem claim_C4_cex :
    (exC4bad ∈ (exC4List.map (fun p => p.2.courses)).flatten ∧
      parseCourseTimes exC4bad.time = .error (.invalidTimeFormat "bogus")) ∧
    filterCourseList exC4List "" "" [] 0 false =
      .ok (some [("U1", ⟨"U1 name", [exC4good]⟩)]) := by
  refine ⟨⟨by decide, by rfl⟩, ?_⟩
  simp [filterCourseList, scheduleUnits, scheduleActivities, tryCourses,
    preprocessedUnits, unitsOf, groupCourses, pushGroup, stableSort,
    stableInsert, unitLE, optionCount, sortActivitiesByCourseOptions, actLE,
    initUnitSchedule, initialTimes, exC4List, exC4good, exC4bad,
    parseCourseTimes, splitSep, splitSepAux, convertTo24Hour, matchTime12,
    trimChars, digitsVal, digitVal, natDigits, pad2, dateOf, instLt,
    hasTimeConflict, scheduleCourse, unscheduleCourse, lookupA, setA]

/-! ## Weekday-only day tags (C10) -/
/-- C10 (amended): the occupied-time index is created with exactly the
five weekday keys; and when the first candidate examined by the search
has a day tag that is not one of them, its day lookup misses and the
scheduler throws a runtime type error instead of returning a schedule or
the infeasibility marker. -/
theorem claim_C10 :
    initialTimes.map Prod.fst = ["MON", "TUE", "WED", "THU", "FRI"] ∧
    ∀ (courseList : CourseList) (sp ep : String) (ds : List String)
      (cpd : Nat) (bb : Bool) (u : SchedUnit) (rest : List SchedUnit)
      (a : Activity) (more : List Activity) (c : Course) (cs : List Course)
      (iv : Option Nat × Option Nat),
      preprocessedUnits courseList = u :: rest →
      sortActivitiesByCourseOptions u.activities = a :: more →
      a.courses = c :: cs →
      parseCourseTimes c.time = .ok iv →
      lookupA initialTimes c.day = none →
      filterCourseList courseList sp ep ds cpd bb = .error .typeError ∧
      ∀ x, filterCourseList courseList sp ep ds cpd bb ≠ .ok x := by
  refine ⟨rfl, ?_⟩
  intro courseList sp ep ds cpd bb u rest a more c cs iv hu ha hc hparse hdaymiss
  have hrun : filterCourseList courseList sp ep ds cpd bb = .error .typeError := by
    rw [filterCourseList, hu, scheduleUnits_cons, ha, scheduleActivities_cons,
      hc, tryCourses_cons_noday cs more rest u _ hparse hdaymiss]
  exact ⟨hrun, fun x h => Except.noConfusion (hrun.symm.trans h)⟩

/-- C10 (counterexample): an input containing a session with day tag
`SAT`, on which the scheduler nevertheless returns a schedule rather
than throwing — the `SAT` session is never examined because an earlier
candidate of its activity succeeds. -/
theorem claim_C10_cex :
    (exC10sat ∈ (exC10List.map (fun p => p.2.courses)).flatten ∧
      lookupA initialTimes exC10sat.day = none) ∧
    filterCourseList exC10List "" "" [] 0 false =
      .ok (some [("U1", ⟨"U1 name", [exC4good]⟩)]) := by
  refine ⟨⟨by decide, by rfl⟩, ?_⟩
  simp [filterCourseList, scheduleUnits, scheduleActivities, tryCourses,
    preprocessedUnits, unitsOf, groupCourses, pushGroup, stableSort,
    stableInsert, unitLE, optionCount, sortActivitiesByCourseOptions, actLE,
    initUnitSchedule, initialTimes, exC10List, exC4good, exC10sat,
    parseCourseTimes, splitSep, splitSepAux, convertTo24Hour, matchTime12,
    trimChars, digitsVal, digitVal, natDigits, pad2, dateOf, instLt,
    hasTimeConflict, scheduleCourse, unscheduleCourse, lookupA, setA]

theorem wfCourse_iff (c : Course) : wfCourse c = true ↔
    (∃ iv, parseCourseTimes c.time = .ok iv) ∧
      c.day ∈ initialTimes.map Prod.fst := by
  rw [wfCourse, Bool.and_eq_true, decide_eq_true_eq]
  constructor
  · rintro ⟨h1, h2⟩
    refine ⟨?_, h2⟩
    cases hp : parseCourseTimes c.time with
    | ok iv => exact ⟨iv, rfl⟩
    | error e => rw [hp] at h1; exact Bool.noConfusion h1
  · rintro ⟨⟨iv, hiv⟩, h2⟩
    rw [hiv]
    exact ⟨rfl, h2⟩

theorem timesWf_day {st : SchedState} (hTW : TimesWf st) {c : Course}
    (hwf : wfCourse c = true) : ∃ l, lookupA st.times c.day = some l :=
  hTW c.day ((wfCourse_iff c).mp hwf).2

/-- `searchNoError`: with well-formed sessions everywhere in scope, a
weekday-complete index, and a present entry for the current unit, the
search never throws; keys of the index and presence of schedule entries
are preserved. -/
theorem searchNoError (n : Nat) :
    (∀ (more : List Activity) (rest : List SchedUnit) (cu : SchedUnit),
      more.length + 2 + sizeUnits rest ≤ n →
      ∀ (cs : List Course) (st : SchedState),
      (∀ c ∈ cs, wfCourse c = true) →
      (∀ a ∈ more, ∀ c ∈ a.courses, wfCourse c = true) →
      (∀ u ∈ rest, WfUnit u) →
      TimesWf st → lookupA st.sched cu.unitCode ≠ none →
      ∃ b st', tryCourses cs more rest cu st = .ok (b, st') ∧ TimesWf st' ∧
        ∀ k, lookupA st.sched k ≠ none → lookupA st'.sched k ≠ none) ∧
    (∀ (acts : List Activity) (rest : List SchedUnit) (cu : SchedUnit),
      acts.length + 1 + sizeUnits rest ≤ n →
      ∀ st : SchedState,
      (∀ a ∈ acts, ∀ c ∈ a.courses, wfCourse c = true) →
      (∀ u ∈ rest, WfUnit u) →
      TimesWf st → lookupA st.sched cu.unitCode ≠ none →
      ∃ b st', scheduleActivities acts rest cu st = .ok (b, st') ∧ TimesWf st' ∧
        ∀ k, lookupA st.sched k ≠ none → lookupA st'.sched k ≠ none) ∧
    (∀ us : List SchedUnit, sizeUnits us ≤ n →
      ∀ st : SchedState, (∀ u ∈ us, WfUnit u) → TimesWf st →
      ∃ b st', scheduleUnits us st = .ok (b, st') ∧ TimesWf st' ∧
        ∀ k, lookupA st.sched k ≠ none → lookupA st'.sched k ≠ none) := by
  induction n using Nat.strong_induction_on with
  | _ n IH =>
  have hT : ∀ (more : List Activity) (rest : List SchedUnit) (cu : SchedUnit),
      more.length + 2 + sizeUnits rest ≤ n →
      ∀ (cs : List Course) (st : SchedState),
      (∀ c ∈ cs, wfCourse c = true) →
      (∀ a ∈ more, ∀ c ∈ a.courses, wfCourse c = true) →
      (∀ u ∈ rest, WfUnit u) →
      TimesWf st → lookupA st.sched cu.unitCode ≠ none →
      ∃ b st', tryCourses cs more rest cu st = .ok (b, st') ∧ TimesWf st' ∧
        ∀ k, lookupA st.sched k ≠ none → lookupA st'.sched k ≠ none := by
    intro more rest cu hm cs
    induction cs with
    | nil =>
        intro st _ _ _ hTW _
        exact ⟨false, st, tryCourses_nil more rest cu st, hTW, fun _ h => h⟩
    | cons c cs' ihc =>
        intro st hcs hmore hrest hTW hcu
        obtain ⟨⟨iv, hparse⟩, _⟩ :=
          (wfCourse_iff c).mp (hcs c (List.mem_cons_self c cs'))
        obtain ⟨scheduled, hday⟩ :=
          timesWf_day hTW (hcs c (List.mem_cons_self c cs'))
        have hcs' : ∀ x ∈ cs', wfCourse x = true :=
          fun x hx => hcs x (List.mem_cons_of_mem c hx)
        cases hconf : hasTimeConflict scheduled iv.1 iv.2 with
        | true =>
            obtain ⟨b, st', hrun, hTW', hmono⟩ :=
              ihc st hcs' hmore hrest hTW hcu
            exact ⟨b, st', by
              rw [tryCourses_cons_conflict cs' more rest cu st hparse hday hconf]
              exact hrun, hTW', hmono⟩
        | false =>
            obtain ⟨en, hen⟩ := Option.ne_none_iff_exists'.mp hcu
            have hsc : scheduleCourse cu.unitCode c iv.1 iv.2 st =
                .ok ⟨setA st.times c.day
                    (scheduled ++ [⟨iv.1, iv.2, cu.unitCode, c.activity⟩]),
                  setA st.sched cu.unitCode
                    ⟨en.unitName, en.courses ++ [c]⟩⟩ := by
              simp only [scheduleCourse, hen, hday]
            set st1 : SchedState := ⟨setA st.times c.day
                (scheduled ++ [⟨iv.1, iv.2, cu.unitCode, c.activity⟩]),
              setA st.sched cu.unitCode ⟨en.unitName, en.courses ++ [c]⟩⟩
              with hst1def
            have hTW1 : TimesWf st1 := by
              intro d hd
              by_cases hdc : d = c.day
              · subst hdc
                exact ⟨_, lookupA_setA_self _ _ _⟩
              · obtain ⟨l, hl⟩ := hTW d hd
                exact ⟨l, by
                  show lookupA (setA st.times c.day _) d = some l
                  rw [lookupA_setA_ne st.times c.day d _ hdc]
                  exact hl⟩
            have hmono1 : ∀ k, lookupA st.sched k ≠ none →
                lookupA st1.sched k ≠ none := by
              intro k hk
              by_cases hkcu : k = cu.unitCode
              · subst hkcu
                show lookupA (setA st.sched cu.unitCode _) cu.unitCode ≠ none
                rw [lookupA_setA_self]
                exact Option.noConfusion
              · show lookupA (setA st.sched cu.unitCode _) k ≠ none
                rw [lookupA_setA_ne st.sched cu.unitCode k _ hkcu]
                exact hk
            have hcu1 : lookupA st1.sched cu.unitCode ≠ none := by
              show lookupA (setA st.sched cu.unitCode _) cu.unitCode ≠ none
              rw [lookupA_setA_self]
              exact Option.noConfusion
            have hlt : more.length + 1 + sizeUnits rest < n := by omega
            obtain ⟨b1, st2, hrec, hTW2, hmono2⟩ := (IH _ hlt).2.1 more rest cu
              le_rfl st1 hmore hrest hTW1 hcu1
            cases b1 with
            | true =>
                refine ⟨true, st2, ?_, hTW2, fun k hk => hmono2 k (hmono1 k hk)⟩
                rw [tryCourses_cons_commit cs' more rest cu st hparse hday
                  hconf hsc]
                simp only [hrec]
            | false =>
                obtain ⟨en2, hen2⟩ := Option.ne_none_iff_exists'.mp
                  (hmono2 cu.unitCode hcu1)
                obtain ⟨l2, hl2⟩ := hTW2 c.day ((wfCourse_iff c).mp
                  (hcs c (List.mem_cons_self c cs'))).2
                have hun : unscheduleCourse cu.unitCode c.day st2 =
                    .ok ⟨setA st2.times c.day l2.dropLast,
                      setA st2.sched cu.unitCode
                        ⟨en2.unitName, en2.courses.dropLast⟩⟩ := by
                  simp only [unscheduleCourse, hen2, hl2]
                set st3 : SchedState := ⟨setA st2.times c.day l2.dropLast,
                  setA st2.sched cu.unitCode
                    ⟨en2.unitName, en2.courses.dropLast⟩⟩ with hst3def
                have hTW3 : TimesWf st3 := by
                  intro d hd
                  by_cases hdc : d = c.day
                  · subst hdc
                    exact ⟨_, lookupA_setA_self _ _ _⟩
                  · obtain ⟨l, hl⟩ := hTW2 d hd
                    exact ⟨l, by
                      show lookupA (setA st2.times c.day _) d = some l
                      rw [lookupA_setA_ne st2.times c.day d _ hdc]
                      exact hl⟩
                have hmono3 : ∀ k, lookupA st2.sched k ≠ none →
                    lookupA st3.sched k ≠ none := by
                  intro k hk
                  by_cases hkcu : k = cu.unitCode
                  · subst hkcu
                    show lookupA (setA st2.sched cu.unitCode _) cu.unitCode ≠ none
                    rw [lookupA_setA_self]
                    exact Option.noConfusion
                  · show lookupA (setA st2.sched cu.unitCode _) k ≠ none
                    rw [lookupA_setA_ne st2.sched cu.unitCode k _ hkcu]
                    exact hk
                have hcu3 : lookupA st3.sched cu.unitCode ≠ none := by
                  show lookupA (setA st2.sched cu.unitCode _) cu.unitCode ≠ none
                  rw [lookupA_setA_self]
                  exact Option.noConfusion
                obtain ⟨b, st', hrun, hTW', hmono'⟩ :=
                  ihc st3 hcs' hmore hrest hTW3 hcu3
                refine ⟨b, st', ?_, hTW', ?_⟩
                · rw [tryCourses_cons_commit cs' more rest cu st hparse hday
                    hconf hsc]
                  simp only [hrec, hun]
                  exact hrun
                · intro k hk
                  exact hmono' k (hmono3 k (hmono2 k (hmono1 k hk)))
  have hA : ∀ (acts : List Activity) (rest : List SchedUnit) (cu : SchedUnit),
      acts.length + 1 + sizeUnits rest ≤ n →
      ∀ st : SchedState,
      (∀ a ∈ acts, ∀ c ∈ a.courses, wfCourse c = true) →
      (∀ u ∈ rest, WfUnit u) →
      TimesWf st → lookupA st.sched cu.unitCode ≠ none →
      ∃ b st', scheduleActivities acts rest cu st = .ok (b, st') ∧ TimesWf st' ∧
        ∀ k, lookupA st.sched k ≠ none → lookupA st'.sched k ≠ none := by
    intro acts rest cu hm st hacts hrest hTW hcu
    cases acts with
    | nil =>
        have hlt : sizeUnits rest < n := by omega
        obtain ⟨b, st', hrun, hTW', hmono⟩ :=
          (IH _ hlt).2.2 rest le_rfl st hrest hTW
        exact ⟨b, st', by rw [scheduleActivities_nil]; exact hrun, hTW', hmono⟩
    | cons a more =>
        have hmt : more.length + 2 + sizeUnits rest ≤ n := by
          simp only [List.length_cons] at hm; omega
        obtain ⟨b, st', hrun, hTW', hmono⟩ := hT more rest cu hmt a.courses st
          (fun c hc => hacts a (List.mem_cons_self a more) c hc)
          (fun a' ha' c hc => hacts a' (List.mem_cons_of_mem a ha') c hc)
          hrest hTW hcu
        exact ⟨b, st', by rw [scheduleActivities_cons]; exact hrun, hTW', hmono⟩
  have hU : ∀ us : List SchedUnit, sizeUnits us ≤ n →
      ∀ st : SchedState, (∀ u ∈ us, WfUnit u) → TimesWf st →
      ∃ b st', scheduleUnits us st = .ok (b, st') ∧ TimesWf st' ∧
        ∀ k, lookupA st.sched k ≠ none → lookupA st'.sched k ≠ none := by
    intro us hm st hus hTW
    cases us with
    | nil => exact ⟨true, st, scheduleUnits_nil st, hTW, fun _ h => h⟩
    | cons u rest =>
        have hTW1 : TimesWf (initUnitSchedule u st) := hTW
        have hcu1 : lookupA (initUnitSchedule u st).sched u.unitCode ≠ none := by
          show lookupA (setA st.sched u.unitCode _) u.unitCode ≠ none
          rw [lookupA_setA_self]
          exact Option.noConfusion
        have hmono1 : ∀ k, lookupA st.sched k ≠ none →
            lookupA (initUnitSchedule u st).sched k ≠ none := by
          intro k hk
          by_cases hkcu : k = u.unitCode
          · subst hkcu
            exact hcu1
          · show lookupA (setA st.sched u.unitCode _) k ≠ none
            rw [lookupA_setA_ne st.sched u.unitCode k _ hkcu]
            exact hk
        have hacts : ∀ a ∈ sortActivitiesByCourseOptions u.activities,
            ∀ c ∈ a.courses, wfCourse c = true := by
          intro a ha c hc
          have ha' : a ∈ u.activities :=
            ((stableSort_perm actLE u.activities).mem_iff).mp ha
          exact hus u (List.mem_cons_self u rest) a ha' c hc
        have hma : (sortActivitiesByCourseOptions u.activities).length + 1 +
            sizeUnits rest ≤ n := by
          rw [sortActivitiesByCourseOptions, stableSort_length]
          rw [sizeUnits_cons] at hm
          omega
        obtain ⟨b, st', hrun, hTW', hmono⟩ := hA
          (sortActivitiesByCourseOptions u.activities) rest u hma
          (initUnitSchedule u st) hacts
          (fun u' hu' => hus u' (List.mem_cons_of_mem u hu')) hTW1 hcu1
        exact ⟨b, st', by rw [scheduleUnits_cons]; exact hrun, hTW',
          fun k hk => hmono k (hmono1 k hk)⟩
  exact ⟨hT, hA, hU⟩

/-! ## From a returned schedule to a conflict-free full selection (C7) -/
theorem forall₂_of_perm {α β : Type} {R : α → β → Prop} {l1 l1' : List α}
    (hp : l1.Perm l1') : ∀ {l2 : List β}, List.Forall₂ R l1 l2 →
    ∃ l2', l2.Perm l2' ∧ List.Forall₂ R l1' l2' := by
  induction hp with
  | nil =>
      intro l2 h
      cases h
      exact ⟨[], List.Perm.refl [], List.Forall₂.nil⟩
  | cons x hp ih =>
      intro l2 h
      cases h with
      | cons hb h2 =>
          obtain ⟨l2', hperm, hf⟩ := ih h2
          exact ⟨_ :: l2', hperm.cons _, List.Forall₂.cons hb hf⟩
  | swap x y l =>
      intro l2 h
      cases h with
      | cons hb1 h2 =>
          cases h2 with
          | cons hb2 h3 =>
              exact ⟨_ :: _ :: _, List.Perm.swap _ _ _,
                List.Forall₂.cons hb2 (List.Forall₂.cons hb1 h3)⟩
  | trans h1 h2 ih1 ih2 =>
      intro l2 h
      obtain ⟨m, hm, hf⟩ := ih1 h
      obtain ⟨m', hm', hf'⟩ := ih2 hf
      exact ⟨m', hm.trans hm', hf'⟩

theorem mem_productChoices_of_forall₂ : ∀ {acts : List Activity}
    {sel : List Course}, List.Forall₂ chooseFrom acts sel →
    sel ∈ productChoices acts := by
  intro acts
  induction acts with
  | nil =>
      intro sel h
      cases h
      simp [productChoices]
  | cons a as ih =>
      intro sel h
      cases h with
      | cons hb h2 =>
          simp only [productChoices, List.mem_flatMap, List.mem_map]
          exact ⟨_, hb, _, ih h2, rfl⟩

theorem flatten_mem_allChoices : ∀ {us : List SchedUnit}
    {sels : List (List Course)},
    List.Forall₂ (fun u sel => sel ∈ unitChoices u) us sels →
    sels.flatten ∈ allChoices us := by
  intro us
  induction us with
  | nil =>
      intro sels h
      cases h
      simp [allChoices]
  | cons u us' ih =>
      intro sels h
      cases h with
      | cons hb h2 =>
          simp only [allChoices, List.mem_flatMap, List.mem_map,
            List.flatten_cons]
          exact ⟨_, hb, _, ih h2, rfl⟩

theorem pairwiseOk_iff (l : List Course) : pairwiseOk l = true ↔
    l.Pairwise (fun c1 c2 => coursesConflict c1 c2 = false) := by
  induction l with
  | nil => simp [pairwiseOk]
  | cons c cs ih =>
      simp only [pairwiseOk, Bool.and_eq_true, List.all_eq_true,
        List.pairwise_cons, ih, Bool.not_eq_true']
      try tauto

theorem forall₂_mem_right {α β : Type} {R : α → β → Prop} :
    ∀ {l1 : List α} {l2 : List β}, List.Forall₂ R l1 l2 →
    ∀ b ∈ l2, ∃ a ∈ l1, R a b := by
  intro l1
  induction l1 with
  | nil =>
      intro l2 h b hb
      cases h
      exact absurd hb (List.not_mem_nil b)
  | cons a as ih =>
      intro l2 h b hb
      cases h with
      | cons hb1 h2 =>
          rcases List.mem_cons.mp hb with rfl | hb'
          · exact ⟨a, List.mem_cons_self a as, hb1⟩
          · obtain ⟨a', ha', hr⟩ := ih h2 b hb'
            exact ⟨a', List.mem_cons_of_mem a ha', hr⟩

theorem sel_pairwise_ne : ∀ {acts : List Activity} {sel : List Course},
    List.Forall₂ (fun a c => c ∈ a.courses ∧ c.activity = a.activityType)
      acts sel →
    acts.Pairwise (fun a b => a.activityType ≠ b.activityType) →
    sel.Pairwise (fun c1 c2 => c1 ≠ c2) := by
  intro acts
  induction acts with
  | nil =>
      intro sel h _
      cases h
      exact List.Pairwise.nil
  | cons a as ih =>
      intro sel h htags
      cases h with
      | cons hb h2 =>
          rw [List.pairwise_cons] at htags ⊢
          refine ⟨?_, ih h2 htags.2⟩
          intro c2 hc2 hceq
          obtain ⟨a2, ha2, _, htag2⟩ := forall₂_mem_right h2 c2 hc2
          exact htags.1 a2 ha2 (by rw [← hb.2, hceq, htag2])

theorem pushGroup_keys (acc : List (String × List Course)) (k : String)
    (c : Course) :
    (pushGroup acc k c).map Prod.fst =
      if k ∈ acc.map Prod.fst then acc.map Prod.fst
      else acc.map Prod.fst ++ [k] := by
  induction acc with
  | nil => simp [pushGroup]
  | cons q rest ih =>
      obtain ⟨k', l⟩ := q
      by_cases hk' : k' = k
      · subst hk'
        simp [pushGroup]
      · simp only [pushGroup, if_neg hk', List.map_cons, List.mem_cons]
        rw [ih]
        by_cases hkin : k ∈ rest.map Prod.fst
        · simp [hkin, hk']
        · simp only [hkin, if_false]
          have hkk' : ¬ k = k' := fun h => hk' h.symm
          simp [hkk', hkin]

theorem pushGroup_keys_nodup {acc : List (String × List Course)}
    (h : (acc.map Prod.fst).Nodup) (k : String) (c : Course) :
    ((pushGroup acc k c).map Prod.fst).Nodup := by
  rw [pushGroup_keys]
  by_cases hkin : k ∈ acc.map Prod.fst
  · simpa [hkin] using h
  · simp [hkin, List.nodup_append, h]

theorem groupCourses_keys_nodup (courses : List Course) :
    ((groupCourses courses).map Prod.fst).Nodup := by
  have main : ∀ (cs : List Course) (acc : List (String × List Course)),
      (acc.map Prod.fst).Nodup →
      ((cs.foldl (fun g c => pushGroup g c.activity c) acc).map Prod.fst).Nodup := by
    intro cs
    induction cs with
    | nil => intro acc hacc; exact hacc
    | cons c cs' ih =>
        intro acc hacc
        rw [List.foldl_cons]
        exact ih _ (pushGroup_keys_nodup hacc c.activity c)
  exact main courses [] List.nodup_nil

theorem pushGroup_mem_sub (acc : List (String × List Course)) (k : String)
    (c : Course) :
    ∀ p ∈ pushGroup acc k c, ∀ x ∈ p.2, (∃ q ∈ acc, x ∈ q.2) ∨ x = c := by
  induction acc with
  | nil =>
      intro p hp x hx
      simp only [pushGroup, List.mem_singleton] at hp
      subst hp
      simp only [List.mem_singleton] at hx
      exact Or.inr hx
  | cons q rest ih =>
      obtain ⟨k', l⟩ := q
      intro p hp x hx
      by_cases hk' : k' = k
      · subst hk'
        simp only [pushGroup, if_pos rfl] at hp
        rcases List.mem_cons.mp hp with rfl | hp'
        · rcases List.mem_append.mp hx with hx' | hx'
          · exact Or.inl ⟨(k', l), List.mem_cons_self _ _, hx'⟩
          · exact Or.inr (List.mem_singleton.mp hx')
        · exact Or.inl ⟨p, List.mem_cons_of_mem _ hp', hx⟩
      · simp only [pushGroup, if_neg hk'] at hp
        rcases List.mem_cons.mp hp with rfl | hp'
        · exact Or.inl ⟨(k', l), List.mem_cons_self _ _, hx⟩
        · rcases ih p hp' x hx with ⟨q, hq, hxq⟩ | hxc
          · exact Or.inl ⟨q, List.mem_cons_of_mem _ hq, hxq⟩
          · exact Or.inr hxc

theorem groupCourses_mem_sub (courses : List Course) :
    ∀ p ∈ groupCourses courses, ∀ x ∈ p.2, x ∈ courses := by
  have main : ∀ (cs : List Course) (acc : List (String × List Course)),
      ∀ p ∈ cs.foldl (fun g c => pushGroup g c.activity c) acc, ∀ x ∈ p.2,
        (∃ q ∈ acc, x ∈ q.2) ∨ x ∈ cs := by
    intro cs
    induction cs with
    | nil =>
        intro acc p hp x hx
        exact Or.inl ⟨p, hp, hx⟩
    | cons c cs' ih =>
        intro acc p hp x hx
        rw [List.foldl_cons] at hp
        rcases ih _ p hp x hx with ⟨q, hq, hxq⟩ | hxc
        · rcases pushGroup_mem_sub acc c.activity c q hq x hxq with h | h
          · rcases h with ⟨q', hq', hxq'⟩
            exact Or.inl ⟨q', hq', hxq'⟩
          · exact Or.inr (h ▸ List.mem_cons_self c cs')
        · exact Or.inr (List.mem_cons_of_mem c hxc)
  intro p hp x hx
  rcases main courses [] p hp x hx with ⟨q, hq, _⟩ | h
  · exact absurd hq (List.not_mem_nil q)
  · exact h

theorem exists_forall₂ {α β : Type} {Q : α → β → Prop} :
    ∀ {l : List α}, (∀ a ∈ l, ∃ b, Q a b) →
    ∃ l2, List.Forall₂ Q l l2 := by
  intro l
  induction l with
  | nil => intro _; exact ⟨[], List.Forall₂.nil⟩
  | cons a as ih =>
      intro h
      obtain ⟨b, hb⟩ := h a (List.mem_cons_self a as)
      obtain ⟨l2, hl2⟩ := ih (fun a' ha' => h a' (List.mem_cons_of_mem a ha'))
      exact ⟨b :: l2, List.Forall₂.cons hb hl2⟩

theorem coursesConflict_eq_false {c1 c2 : Course}
    (h : c1.day = c2.day → ∀ s1 t1 s2 t2,
      parseCourseTimes c1.time = .ok (s1, t1) →
      parseCourseTimes c2.time = .ok (s2, t2) →
      ¬(instLt s1 t2 = true ∧ instLt s2 t1 = true)) :
    coursesConflict c1 c2 = false := by
  rw [coursesConflict]
  by_cases hday : c1.day = c2.day
  · cases hp1 : parseCourseTimes c1.time with
    | error e => simp [hp1]
    | ok iv1 =>
        cases hp2 : parseCourseTimes c2.time with
        | error e => simp [hp1, hp2]
        | ok iv2 =>
            obtain ⟨s1, t1⟩ := iv1
            obtain ⟨s2, t2⟩ := iv2
            have hne := h hday s1 t1 s2 t2 hp1 hp2
            simp only [hp1, hp2]
            cases h1 : instLt s1 t2 with
            | false => simp
            | true =>
                cases h2 : instLt s2 t1 with
                | false => simp
                | true => exact absurd ⟨h1, h2⟩ hne
  · have : (c1.day == c2.day) = false := by
      rw [beq_eq_false_iff_ne]
      exact hday
    simp [this]

theorem pairwise_flatten_sel {R : Course → Course → Prop}
    {fs : FilteredCourseList}
    (hcross : ∀ (u1 u2 : SchedUnit) (c1 c2 : Course),
      u1.unitCode ≠ u2.unitCode →
      (∃ e, lookupA fs u1.unitCode = some e ∧ c1 ∈ e.courses) →
      (∃ e, lookupA fs u2.unitCode = some e ∧ c2 ∈ e.courses) → R c1 c2) :
    ∀ {us : List SchedUnit} {sels : List (List Course)},
    List.Forall₂ (fun (u : SchedUnit) sel => sel.Pairwise R ∧
      ∀ c ∈ sel, ∃ e, lookupA fs u.unitCode = some e ∧ c ∈ e.courses) us sels →
    (SchedCodes us).Nodup →
    sels.flatten.Pairwise R := by
  intro us
  induction us with
  | nil =>
      intro sels h _
      cases h
      exact List.Pairwise.nil
  | cons u us' ih =>
      intro sels h hnd
      cases h with
      | cons hb h2 =>
          simp only [SchedCodes, List.map_cons, List.nodup_cons] at hnd
          rw [List.flatten_cons, List.pairwise_append]
          refine ⟨hb.1, ih h2 hnd.2, ?_⟩
          intro c1 hc1 c2 hc2
          obtain ⟨sel2, hsel2, hc2'⟩ := List.mem_flatten.mp hc2
          obtain ⟨u2, hu2, hQ2⟩ := forall₂_mem_right h2 sel2 hsel2
          have hne : u.unitCode ≠ u2.unitCode := by
            intro h
            exact hnd.1 (h ▸ List.mem_map_of_mem SchedUnit.unitCode hu2)
          exact hcross u u2 c1 c2 hne (hb.2 c1 hc1) (hQ2.2 c2 hc2')

/-- C7 (amended): for every input with unique unit codes whose sessions
all have parseable time texts and weekday day tags, if no conflict-free
full selection exists (one session per activity group of every unit,
no same-day overlap), `filterCourseList` returns the distinct
infeasibility marker `none` — distinguishable from an
empty-but-successful mapping — rather than raising an error. -/
theorem claim_C7 (courseList : CourseList) (sp ep : String) (ds : List String)
    (cpd : Nat) (bb : Bool)
    (hnd : (courseList.map Prod.fst).Nodup)
    (hwf : wfInput courseList = true)
    (hno : existsValidChoice (preprocessedUnits courseList) = false) :
    filterCourseList courseList sp ep ds cpd bb = .ok none ∧
    (none : Option FilteredCourseList) ≠ some [] := by
  refine ⟨?_, by simp⟩
  have hwf' : ∀ u ∈ preprocessedUnits courseList, WfUnit u := by
    intro u hu
    have hu' : u ∈ unitsOf courseList :=
      ((stableSort_perm unitLE (unitsOf courseList)).mem_iff).mp hu
    obtain ⟨⟨k, data⟩, hmemkd, rfl⟩ := List.mem_map.mp hu'
    intro a ha c hc
    obtain ⟨g, hg, rfl⟩ := List.mem_map.mp ha
    have hcin : c ∈ data.courses := groupCourses_mem_sub data.courses g hg c hc
    have h1 := List.all_eq_true.mp hwf (k, data) hmemkd
    exact List.all_eq_true.mp h1 c hcin
  have hTW : TimesWf ⟨initialTimes, []⟩ := by
    intro d hd
    cases hl : lookupA initialTimes d with
    | some l => exact ⟨l, rfl⟩
    | none =>
        rw [lookupA_eq_none_iff] at hl
        exact absurd hd hl
  obtain ⟨b, st', hview, hTW', hmono⟩ := (searchNoError
    (sizeUnits (preprocessedUnits courseList))).2.2
    (preprocessedUnits courseList) le_rfl ⟨initialTimes, []⟩ hwf' hTW
  cases b with
  | false => simp only [filterCourseList, hview]
  | true =>
      exfalso
      set K := SchedCodes (preprocessedUnits courseList) with hKdef
      have hK : K.Nodup := schedCodes_preprocessed_nodup hnd
      have hUh : UHyps K (preprocessedUnits courseList) ⟨initialTimes, []⟩ :=
        ⟨fun u hu => List.mem_map_of_mem SchedUnit.unitCode hu, hK,
          fun u _ => Or.inl rfl, initial_inv K⟩
      obtain ⟨hinv, hpres, hfull⟩ := ((searchMain
        (sizeUnits (preprocessedUnits courseList))).2.2 K hK
        (preprocessedUnits courseList) le_rfl ⟨initialTimes, []⟩ hUh
        true st' hview).2 rfl
      have hrun : filterCourseList courseList sp ep ds cpd bb =
          .ok (some st'.sched) := by
        simp only [filterCourseList, hview]
      have hR : ∀ (u1 u2 : SchedUnit) (c1 c2 : Course),
          (u1.unitCode ≠ u2.unitCode ∨ c1 ≠ c2) →
          (∃ e, lookupA st'.sched u1.unitCode = some e ∧ c1 ∈ e.courses) →
          (∃ e, lookupA st'.sched u2.unitCode = some e ∧ c2 ∈ e.courses) →
          coursesConflict c1 c2 = false := by
        rintro u1 u2 c1 c2 hdis ⟨e1, he1, hc1⟩ ⟨e2, he2, hc2⟩
        refine coursesConflict_eq_false ?_
        intro hday s1 t1 s2 t2 hp1 hp2
        exact soundness_core hnd hrun he1 he2 hc1 hc2 hdis hday hp1 hp2
      have hQ : ∀ u ∈ preprocessedUnits courseList, ∃ sel',
          sel' ∈ unitChoices u ∧
          sel'.Pairwise (fun c1 c2 => coursesConflict c1 c2 = false) ∧
          ∀ c ∈ sel', ∃ e, lookupA st'.sched u.unitCode = some e ∧
            c ∈ e.courses := by
        intro u hu
        obtain ⟨sel, hlook, hsel⟩ := hfull u hu
        obtain ⟨sel', hperm, hsel'⟩ := forall₂_of_perm
          (stableSort_perm actLE u.activities) hsel
        have hmem : ∀ c ∈ sel', ∃ e, lookupA st'.sched u.unitCode = some e ∧
            c ∈ e.courses :=
          fun c hc => ⟨⟨u.unitName, sel⟩, hlook, hperm.mem_iff.mpr hc⟩
        have hu' : u ∈ unitsOf courseList :=
          ((stableSort_perm unitLE (unitsOf courseList)).mem_iff).mp hu
        obtain ⟨⟨k, data⟩, hmemkd, rfl⟩ := List.mem_map.mp hu'
        have htagprop : ∀ a ∈ (groupCourses data.courses).map
            (fun g => Activity.mk g.1 g.2), ∀ c ∈ a.courses,
            c.activity = a.activityType := by
          intro a ha c hc
          obtain ⟨g, hg, rfl⟩ := List.mem_map.mp ha
          exact groupCourses_prop data.courses g hg c hc
        have hstrong := forall₂_chooseFrom_strengthen hsel' htagprop
        have htags : ((groupCourses data.courses).map
            (fun g => Activity.mk g.1 g.2)).Pairwise
            (fun a b => a.activityType ≠ b.activityType) := by
          rw [List.pairwise_map]
          exact List.pairwise_map.mp (groupCourses_keys_nodup data.courses)
        have hne := sel_pairwise_ne hstrong htags
        refine ⟨sel', mem_productChoices_of_forall₂ hsel', ?_, hmem⟩
        refine hne.imp_of_mem ?_
        intro c1 c2 hc1 hc2 hne12
        exact hR _ _ c1 c2 (Or.inr hne12) (hmem c1 hc1) (hmem c2 hc2)
      obtain ⟨sels, hsels⟩ := exists_forall₂ (Q := fun u sel' =>
        sel' ∈ unitChoices u ∧
        sel'.Pairwise (fun c1 c2 => coursesConflict c1 c2 = false) ∧
        ∀ c ∈ sel', ∃ e, lookupA st'.sched u.unitCode = some e ∧
          c ∈ e.courses) (fun u hu => hQ u hu)
      have hflat_mem : sels.flatten ∈ allChoices (preprocessedUnits courseList) :=
        flatten_mem_allChoices (hsels.imp (fun _ _ h => h.1))
      have hflat_ok : pairwiseOk sels.flatten = true := by
        rw [pairwiseOk_iff]
        exact pairwise_flatten_sel
          (fun u1 u2 c1 c2 hne h1 h2 => hR u1 u2 c1 c2 (Or.inl hne) h1 h2)
          (hsels.imp (fun _ _ h => ⟨h.2.1, h.2.2⟩)) hK
      have hcontra : existsValidChoice (preprocessedUnits courseList) = true := by
        rw [existsValidChoice, List.any_eq_true]
        exact ⟨sels.flatten, hflat_mem, hflat_ok⟩
      rw [hno] at hcontra
      exact Bool.noConfusion hcontra

theorem exW1_run :
    filterCourseList exW1List "" "" [] 0 false = .ok (some exW1fs) := by
  simp [filterCourseList, scheduleUnits, scheduleActivities, tryCourses,
    preprocessedUnits, unitsOf, groupCourses, pushGroup, stableSort,
    stableInsert, unitLE, optionCount, sortActivitiesByCourseOptions, actLE,
    initUnitSchedule, initialTimes, exW1List, exW1fs, exCourseA, exWcB,
    parseCourseTimes, splitSep, splitSepAux, convertTo24Hour, matchTime12,
    trimChars, digitsVal, digitVal, natDigits, pad2, dateOf, instLt,
    hasTimeConflict, scheduleCourse, unscheduleCourse, lookupA, setA]
  rfl

theorem claim_C1_witness :
    ((exW1List.map Prod.fst).Nodup ∧
      filterCourseList exW1List "" "" [] 0 false = .ok (some exW1fs) ∧
      lookupA exW1fs "A" = some ⟨"A name", [exCourseA]⟩ ∧
      lookupA exW1fs "B" = some ⟨"B name", [exWcB]⟩ ∧
      exCourseA ∈ [exCourseA] ∧ exWcB ∈ [exWcB] ∧
      ("A" ≠ "B" ∨ exCourseA ≠ exWcB) ∧ exCourseA.day = exWcB.day ∧
      parseCourseTimes exCourseA.time = .ok (some 32400, some 36000) ∧
      parseCourseTimes exWcB.time = .ok (some 36000, some 39600)) ∧
    ¬(instLt (some 32400) (some 39600) = true ∧
      instLt (some 36000) (some 36000) = true) := by
  exact ⟨⟨by decide, exW1_run, by rfl, by rfl, by decide, by decide,
      Or.inl (by decide), rfl, by rfl, by rfl⟩,
    claim_C1 exW1List "" "" [] 0 false exW1fs (by decide) exW1_run
      "A" "B" ⟨"A name", [exCourseA]⟩ ⟨"B name", [exWcB]⟩ exCourseA exWcB
      (by rfl) (by rfl) (by decide) (by decide) (Or.inl (by decide)) rfl
      (some 32400) (some 36000) (some 36000) (some 39600) (by rfl) (by rfl)⟩

theorem claim_C2_witness :
    ((exW1List.map Prod.fst).Nodup ∧
      filterCourseList exW1List "" "" [] 0 false = .ok (some exW1fs) ∧
      ("A", (⟨"A name", [exCourseA]⟩ : UnitData)) ∈ exW1List) ∧
    (∃ acts' sel,
      acts'.Perm ((groupCourses [exCourseA]).map
        (fun g => Activity.mk g.1 g.2)) ∧
      List.Forall₂ (fun a c => c ∈ a.courses ∧ c.activity = a.activityType)
        acts' sel ∧
      lookupA exW1fs "A" = some ⟨"A name", sel⟩ ∧
      sel.length = (groupCourses [exCourseA]).length) := by
  exact ⟨⟨by decide, exW1_run, by decide⟩,
    claim_C2 exW1List "" "" [] 0 false exW1fs (by decide) exW1_run
      "A" ⟨"A name", [exCourseA]⟩ (by decide)⟩

theorem claim_C4_witness :
    (preprocessedUnits exC4wList = [exC4wUnit] ∧
      sortActivitiesByCourseOptions exC4wUnit.activities =
        [⟨"LEC", [exC4wCourse]⟩] ∧
      (⟨"LEC", [exC4wCourse]⟩ : Activity).courses = [exC4wCourse] ∧
      parseCourseTimes exC4wCourse.time =
        .error (.invalidTimeFormat "9:00")) ∧
    (filterCourseList exC4wList "" "" [] 0 false =
        .error (.invalidTimeFormat "9:00") ∧
      ∀ x, filterCourseList exC4wList "" "" [] 0 false ≠ .ok x) := by
  exact ⟨⟨by rfl, by rfl, rfl, by rfl⟩,
    claim_C4 exC4wList "" "" [] 0 false exC4wUnit [] ⟨"LEC", [exC4wCourse]⟩
      [] exC4wCourse [] (.invalidTimeFormat "9:00") (by rfl) (by rfl) rfl
      (by rfl)⟩

theorem claim_C5_witness :
    (["A", "B"].Nodup ∧ AHyps ["A", "B"] [exUnitB] exUnitA exSt0 ∧
      parseCourseTimes exCourseA.time = .ok (some 32400, some 36000) ∧
      lookupA exSt0.times exCourseA.day = some [] ∧
      hasTimeConflict [] (some 32400) (some 36000) = false ∧
      scheduleCourse exUnitA.unitCode exCourseA (some 32400) (some 36000)
        exSt0 = .ok exSt1 ∧
      scheduleActivities [] [exUnitB] exUnitA exSt1 = .ok (false, exSt2) ∧
      unscheduleCourse exUnitA.unitCode exCourseA.day exSt2 = .ok exSt3) ∧
    (exSt3.times = exSt0.times ∧
      (∀ k, k ∉ SchedCodes [exUnitB] →
        lookupA exSt3.sched k = lookupA exSt0.sched k) ∧
      (∀ k ∈ SchedCodes [exUnitB],
        lookupA exSt3.sched k = lookupA exSt0.sched k ∨
        ∃ nm, lookupA exSt3.sched k = some (UnitEntry.mk nm []))) := by
  have hinv0 : SearchInv ["A", "B"] exSt0 := by
    have heq : exSt0 = initUnitSchedule exUnitA ⟨initialTimes, []⟩ := rfl
    rw [heq]
    exact initUnitSchedule_inv (by decide) (initial_inv ["A", "B"])
      (by decide) (Or.inl rfl)
  have hA : AHyps ["A", "B"] [exUnitB] exUnitA exSt0 :=
    ⟨by decide, by decide, by decide, by decide,
      fun u hu => by
        rcases List.mem_singleton.mp hu with rfl
        exact Or.inl rfl,
      hinv0⟩
  have hrec : scheduleActivities [] [exUnitB] exUnitA exSt1 =
      .ok (false, exSt2) := by
    simp [scheduleActivities, scheduleUnits, tryCourses, initUnitSchedule,
      sortActivitiesByCourseOptions, stableSort, stableInsert, exUnitB,
      exUnitA, exSt1, exSt2, exCourseA, exCourseB, parseCourseTimes, splitSep,
      splitSepAux, convertTo24Hour, matchTime12, trimChars, digitsVal,
      digitVal, natDigits, pad2, dateOf, instLt, hasTimeConflict, lookupA,
      setA, scheduleCourse, unscheduleCourse]
    exact ⟨rfl, rfl⟩
  exact ⟨⟨by decide, hA, by rfl, by rfl, by rfl, by rfl, hrec, by rfl⟩,
    claim_C5 ["A", "B"] (by decide) [exUnitB] exUnitA exSt0 exSt1 exSt2 exSt3
      exCourseA (some 32400, some 36000) [] [] hA (by rfl) (by rfl) (by rfl)
      (by rfl) hrec (by rfl)⟩

theorem claim_C6_witness :
    (["B"].Nodup ∧ UHyps ["B"] [exUnitB] ⟨initialTimes, []⟩ ∧
      scheduleUnits [exUnitB] ⟨initialTimes, []⟩ = .ok (true, exStC6)) ∧
    SearchInv ["B"] exStC6 := by
  have hUh : UHyps ["B"] [exUnitB] ⟨initialTimes, []⟩ :=
    ⟨by decide, by decide, fun u _ => Or.inl rfl, initial_inv ["B"]⟩
  have hrun : scheduleUnits [exUnitB] ⟨initialTimes, []⟩ =
      .ok (true, exStC6) := by
    simp [scheduleUnits, scheduleActivities, tryCourses, initUnitSchedule,
      sortActivitiesByCourseOptions, stableSort, stableInsert, exUnitB,
      exCourseB, exStC6, initialTimes, parseCourseTimes, splitSep, splitSepAux,
      convertTo24Hour, matchTime12, trimChars, digitsVal, digitVal, natDigits,
      pad2, dateOf, instLt, hasTimeConflict, lookupA, setA, scheduleCourse,
      unscheduleCourse]
    exact ⟨rfl, rfl⟩
  exact ⟨⟨by decide, hUh, hrun⟩,
    claim_C6.2 ["B"] (by decide) [exUnitB] ⟨initialTimes, []⟩ hUh true exStC6
      hrun⟩

/-- C7 (counterexample): an input on which no conflict-free full
assignment exists (two single-option activities occupy the same Saturday
hour) and every time text parses, yet the call throws a runtime type
error instead of returning the infeasibility marker `null`. -/
theorem claim_C7_cex :
    parseCourseTimes "9:00am - 10:00am" = .ok (some 32400, some 36000) ∧
    existsValidChoice (preprocessedUnits exC7List) = false ∧
    filterCourseList exC7List "" "" [] 0 false = .error .typeError ∧
    (Except.error JsError.typeError :
      Except JsError (Option FilteredCourseList)) ≠ .ok none := by
  refine ⟨by rfl, by rfl, ?_, fun h => Except.noConfusion h⟩
  simp [filterCourseList, scheduleUnits, scheduleActivities, tryCourses,
    preprocessedUnits, unitsOf, groupCourses, pushGroup, stableSort,
    stableInsert, unitLE, optionCount, sortActivitiesByCourseOptions, actLE,
    initUnitSchedule, initialTimes, exC7List, exC7L, exC7T,
    parseCourseTimes, splitSep, splitSepAux, convertTo24Hour, matchTime12,
    trimChars, digitsVal, digitVal, natDigits, pad2, dateOf, instLt,
    hasTimeConflict, scheduleCourse, unscheduleCourse, lookupA, setA]

theorem claim_C7_witness :
    ((exC7wList.map Prod.fst).Nodup ∧ wfInput exC7wList = true ∧
      existsValidChoice (preprocessedUnits exC7wList) = false) ∧
    (filterCourseList exC7wList "" "" [] 0 false = .ok none ∧
      (none : Option FilteredCourseList) ≠ some []) := by
  exact ⟨⟨by decide, by rfl, by rfl⟩,
    claim_C7 exC7wList "" "" [] 0 false (by decide) (by rfl) (by rfl)⟩

theorem claim_C10_witness :
    (preprocessedUnits exC10wList = [exC10wUnit] ∧
      sortActivitiesByCourseOptions exC10wUnit.activities =
        [⟨"LEC", [exC10wCourse]⟩] ∧
      parseCourseTimes exC10wCourse.time = .ok (some 32400, some 36000) ∧
      lookupA initialTimes exC10wCourse.day = none) ∧
    (filterCourseList exC10wList "" "" [] 0 false = .error .typeError ∧
      ∀ x, filterCourseList exC10wList "" "" [] 0 false ≠ .ok x) := by
  exact ⟨⟨by rfl, by rfl, by rfl, by rfl⟩,
    claim_C10.2 exC10wList "" "" [] 0 false exC10wUnit []
      ⟨"LEC", [exC10wCourse]⟩ [] exC10wCourse [] (some 32400, some 36000)
      (by rfl) (by rfl) rfl (by rfl) (by rfl)⟩
